import Mathlib

/-!
Verification of the drug-repurposing engine in
server/classification/views.py (functions fetch_dgidb_drugs_via_graphql
and drug_repurposing_engine).

Shallow embedding notes:
* Python floats are modelled by rationals (ℚ); the only float arithmetic in
  the engine is the proximity score 1.0/(dist + 1e-6) with dist ∈ {1, 2} and
  the drug-interaction score comparisons, where the float and rational
  orderings agree.
* The NetworkX `Graph` is modelled by its insertion-ordered node list and an
  edge list holding one entry per unordered node pair (NetworkX merges
  duplicate `add_edge` calls into one edge, updating the attributes).
* pandas rows are modelled by the two identifier cells (as the strings
  `str(cell)` produces, so a NaN cell reads "nan") plus the parsed value of
  the optional third (weight) cell; `Table.numCols` is the frame width.
* The HTTP layer of the DGIdb call is modelled by a `NetResult` oracle:
  network error, or a response with a status code and a body that is either
  non-JSON or JSON with an optional "errors" key and the
  data.genes.nodes list.  Exceptions raised by the Python code are
  modelled by `Option`/`Except` results.
-/

/-! ## Python string primitives

`str.strip`, `str.upper` and string comparison are modelled over the
character list of the string with structural recursion, so concrete runs
reduce inside the kernel.  `pyUpper` is ASCII uppercasing, which agrees with
Python on the gene-symbol alphabet used here; `pyLE` is the code-point
lexicographic order Python uses to compare strings. -/

def pyStrip (s : String) : String :=
  ⟨((s.data.dropWhile Char.isWhitespace).reverse.dropWhile Char.isWhitespace).reverse⟩

def pyUpper (s : String) : String :=
  ⟨s.data.map Char.toUpper⟩

def charListLT : List Char → List Char → Bool
  | [], [] => false
  | [], _ :: _ => true
  | _ :: _, [] => false
  | a :: as, b :: bs => if a = b then charListLT as bs else decide (a.toNat < b.toNat)

def pyLT (a b : String) : Bool := charListLT a.data b.data

def pyLE (a b : String) : Bool := !(pyLT b a)

/-! ## Graph builder (views.py lines 642-658) -/

structure Row where
  src : String
  tgt : String
  w : Option ℚ
deriving DecidableEq

structure Table where
  numCols : ℕ
  rows : List Row
deriving DecidableEq

structure Graph where
  nodes : List String
  edges : List (String × String × Option ℚ)
deriving DecidableEq

def Graph.empty : Graph := { nodes := [], edges := [] }

/-- Does edge `e` join the unordered pair `{u, v}`? -/
def sameUPair (u v : String) (e : String × String × Option ℚ) : Bool :=
  (e.1 == u && e.2.1 == v) || (e.1 == v && e.2.1 == u)

def Graph.addNode (G : Graph) (u : String) : Graph :=
  if u ∈ G.nodes then G else { G with nodes := G.nodes ++ [u] }

/-- `G.add_edge(u, v, weight=w)` (or without the weight attribute when
`w = none`): inserts the endpoints, then either updates the attributes of the
existing edge for the unordered pair or appends a fresh edge. -/
def Graph.addEdge (G : Graph) (u v : String) (w : Option ℚ) : Graph :=
  let G1 := (G.addNode u).addNode v
  if G1.edges.any (sameUPair u v) then
    { G1 with
      edges := G1.edges.map (fun e =>
        if sameUPair u v e then (e.1, e.2.1, w.orElse (fun _ => e.2.2)) else e) }
  else { G1 with edges := G1.edges ++ [(u, v, w)] }

/-- A row is kept unless either identifier is blank or the string "nan"
after stripping (views.py line 648). -/
def rowKept (r : Row) : Bool :=
  let s := pyStrip r.src
  let t := pyStrip r.tgt
  !(s == "" || t == "" || s == "nan" || t == "nan")

/-- Effective weight attribute for a row: when a third column exists, the
parsed float with parse failures defaulting to 1.0; otherwise no weight
attribute is set (views.py lines 651-658). -/
def rowWeight (t : Table) (r : Row) : Option ℚ :=
  if 2 < t.numCols then some (r.w.getD 1) else none

def buildGraph (t : Table) : Graph :=
  t.rows.foldl
    (fun G r =>
      if rowKept r then G.addEdge (pyStrip r.src) (pyStrip r.tgt) (rowWeight t r) else G)
    Graph.empty

/-! ## BFS (nx.single_source_shortest_path_length with cutoff) -/

def Graph.neighbors (G : Graph) (u : String) : List String :=
  G.nodes.filter (fun v => G.edges.any (sameUPair u v))

/-- Append the members of `xs` that are neither in `visited` nor already in
`acc`, preserving order and without duplicates. -/
def dedupAppend (visited acc xs : List String) : List String :=
  xs.foldl (fun a v => if v ∈ visited ∨ v ∈ a then a else a ++ [v]) acc

def nextFrontier (G : Graph) (visited frontier : List String) : List String :=
  frontier.foldl (fun acc u => dedupAppend visited acc (G.neighbors u)) []

/-- Levels `d, d+1, ...` of the breadth-first search, at most `fuel` more
levels. -/
def bfsAux (G : Graph) : ℕ → List String → List String → ℕ → List (String × ℕ)
  | 0, _, _, _ => []
  | fuel + 1, visited, frontier, d =>
    let nf := nextFrontier G visited frontier
    if nf.isEmpty then []
    else nf.map (fun v => (v, d)) ++ bfsAux G fuel (visited ++ nf) nf (d + 1)

/-- All nodes within `cutoff` hops of `src` paired with their hop distance,
the source itself included at distance 0. -/
def bfsFrom (G : Graph) (src : String) (cutoff : ℕ) : List (String × ℕ) :=
  (src, 0) :: bfsAux G cutoff [src] [src] 1

/-! ## Candidate map (views.py lines 660-690) -/

def maxHops : ℕ := 2

/-- Proximity score 1.0 / (dist + 1e-6), as a rational.  Written as the
equivalent single fraction so that concrete runs reduce in the kernel
(`Rat.div` is irreducible); `qscore_spec` below proves it equal to the
literal `1 / (d + 1/1000000)` of the source. -/
def qscore (d : ℕ) : ℚ := mkRat 1000000 (1000000 * d + 1)

structure Candidate where
  target : String
  nearest_biomarker : String
  hops_from_biomarker : ℕ
  score : ℚ
  evidence : String
deriving DecidableEq

def mkCand (n s : String) (d : ℕ) : Candidate :=
  { target := n
    nearest_biomarker := s
    hops_from_biomarker := d
    score := qscore d
    evidence := "Nearest biomarker: " ++ s ++ ", shortest path length: " ++ toString d }

/-- Association-list lookup (Python dict read). -/
def alook {α : Type} (m : List (String × α)) (k : String) : Option α :=
  match m with
  | [] => none
  | (k', v) :: rest => if k' = k then some v else alook rest k

/-- Association-list write (Python dict assignment: update in place if the
key exists, else append). -/
def aset {α : Type} (m : List (String × α)) (k : String) (v : α) : List (String × α) :=
  match m with
  | [] => [(k, v)]
  | (k', v') :: rest => if k' = k then (k', v) :: rest else (k', v') :: aset rest k v

/-- One merge step of the BFS loop: insert the candidate for `n` discovered
from seed `s` at distance `d` unless an existing record has a score at least
as high (views.py lines 681-690). -/
def mergeEntry (m : List (String × Candidate)) (s n : String) (d : ℕ) :
    List (String × Candidate) :=
  match alook m n with
  | none => aset m n (mkCand n s d)
  | some c => if c.score < qscore d then aset m n (mkCand n s d) else m

/-- Process one biomarker: skip it if absent from the graph, otherwise merge
every BFS hit other than the seed itself. -/
def processSeed (G : Graph) (m : List (String × Candidate)) (s : String) :
    List (String × Candidate) :=
  if s ∈ G.nodes then
    (bfsFrom G s maxHops).foldl
      (fun m p => if p.1 = s then m else mergeEntry m s p.1 p.2) m
  else m

def candMapOf (G : Graph) (bs : List String) : List (String × Candidate) :=
  bs.foldl (processSeed G) []

def insertNew (acc : List String) (v : String) : List String :=
  if v ∈ acc then acc else acc ++ [v]

/-- The `subgraph_nodes` set: each present biomarker together with every node
the capped BFS reaches from it. -/
def subNodesOf (G : Graph) (bs : List String) : List String :=
  bs.foldl
    (fun acc s =>
      if s ∈ G.nodes then ((bfsFrom G s maxHops).map Prod.fst).foldl insertNew (insertNew acc s)
      else acc)
    []

/-! ## DGIdb enrichment client (views.py lines 479-586) -/

structure Drug where
  name : Option String
  conceptId : Option String
deriving DecidableEq

structure Interaction where
  drug : Option Drug
  interactionScore : Option ℚ
  interactionTypes : List (Option String)
  publications : List (Option ℕ)
  sources : List (Option String)
deriving DecidableEq

structure GeneNode where
  interactions : List Interaction
deriving DecidableEq

structure DrugEntry where
  drug_name : String
  concept_id : Option String
  score : Option ℚ
  types : List (Option String)
  publications : List (Option ℕ)
  sources : List (Option String)
deriving DecidableEq

def mkEntry (inter : Interaction) (dn : String) : DrugEntry :=
  { drug_name := dn
    concept_id := (inter.drug.getD { name := none, conceptId := none }).conceptId
    score := inter.interactionScore
    types := inter.interactionTypes
    publications := inter.publications
    sources := inter.sources }

/-- sorted({str(g).strip() for g in genes if str(g).strip()}) -/
def uniqueGenes (genes : List String) : List String :=
  List.insertionSort (fun a b : String => pyLE a b = true)
    (((genes.map pyStrip).filter (fun s => s != "")).dedup)

/-- Index of the first element of `l` equal to `x` (Python list.index);
returns `l.length` when absent. -/
def firstIdx (l : List GeneNode) (x : GeneNode) : ℕ :=
  match l with
  | [] => 0
  | y :: rest => if y = x then 0 else firstIdx rest x + 1

/-- The inner initialisation loop: give every unique gene an empty list if it
has no entry yet (views.py lines 565-567). -/
def initKeys (ug : List String) (m : List (String × List DrugEntry)) :
    List (String × List DrugEntry) :=
  ug.foldl (fun m g => if (alook m g).isSome then m else m ++ [(g, [])]) m

/-- gene_to_drugs[k].append(e): `none` models the KeyError raised when `k`
has no entry. -/
def bump (m : List (String × List DrugEntry)) (k : String) (e : DrugEntry) :
    Option (List (String × List DrugEntry)) :=
  match m with
  | [] => none
  | (k', l) :: rest =>
    if k' = k then some ((k', l ++ [e]) :: rest)
    else (bump rest k e).map (fun r => (k', l) :: r)

/-- Python truthiness of the extracted drug name. -/
def falsyName : Option String → Bool
  | none => true
  | some s => s.isEmpty

/-- (inter.get("drug") or \x7b\x7d).get("name") -/
def interDrugName (inter : Interaction) : Option String :=
  (inter.drug.getD { name := none, conceptId := none }).name

/-- Process one interaction of one gene node (views.py lines 554-584). -/
def processInter (ug : List String) (nodes : List GeneNode) (gn : GeneNode)
    (m : List (String × List DrugEntry)) (inter : Interaction) :
    Option (List (String × List DrugEntry)) :=
  let dn := interDrugName inter
  if falsyName dn then some m
  else
    let m1 := initKeys ug m
    let gi := firstIdx nodes gn
    if gi < ug.length then bump m1 (pyUpper (ug.getD gi "")) (mkEntry inter (dn.getD ""))
    else some m1

def parseNodes (ug : List String) (nodes : List GeneNode) :
    Option (List (String × List DrugEntry)) :=
  nodes.foldlM (fun m gn => gn.interactions.foldlM (processInter ug nodes gn) m) []

inductive BodyKind where
  | nonJson : BodyKind
  | json : Bool → List GeneNode → BodyKind
deriving DecidableEq

inductive NetResult where
  | netError : NetResult
  | ok : ℕ → BodyKind → NetResult
deriving DecidableEq

/-- The enrichment call: `none` models an uncaught exception escaping the
parsing section; every transport/HTTP/JSON/GraphQL failure yields an empty
mapping. -/
def fetch_dgidb_drugs_via_graphql (genes : List String) (net : NetResult) :
    Option (List (String × List DrugEntry)) :=
  if genes.isEmpty then some []
  else
    let ug := uniqueGenes genes
    if ug.isEmpty then some []
    else
      match net with
      | .netError => some []
      | .ok status body =>
        if status ≠ 200 then some []
        else
          match body with
          | .nonJson => some []
          | .json true _ => some []
          | .json false nodes => parseNodes ug nodes

/-! ## Per-candidate enrichment and response assembly (views.py 692-756) -/

/-- Python `a or b` on an optional list: an empty (falsy) or missing list
falls through to the alternative. -/
def orNonEmpty (o : Option (List DrugEntry)) (fb : List DrugEntry) : List DrugEntry :=
  match o with
  | some l => if l.isEmpty then fb else l
  | none => fb

/-- Sort key (d.get("score") or 0): a null score coalesces to 0 (and so does
a literal 0.0 score). -/
def drugKey (d : DrugEntry) : ℚ := d.score.getD 0

/-- Descending-by-key order used with the stable sort (reverse=True). -/
def drugGE (a b : DrugEntry) : Prop := drugKey b ≤ drugKey a

instance : DecidableRel drugGE := fun a b =>
  inferInstanceAs (Decidable (drugKey b ≤ drugKey a))

structure ECand where
  target : String
  nearest_biomarker : String
  hops_from_biomarker : ℕ
  score : ℚ
  evidence : String
  drug_name : Option String
  drug_list : List String
  drug_count : ℕ
  drug_details : List DrugEntry
deriving DecidableEq

def MAX_DRUGS_PER_TARGET : ℕ := 3

def enrichCandidate (mapping : List (String × List DrugEntry)) (g : String)
    (c : Candidate) : ECand :=
  let di := orNonEmpty (alook mapping g) (orNonEmpty (alook mapping (pyUpper g)) [])
  let sortedD := List.insertionSort drugGE di
  let top := sortedD.take MAX_DRUGS_PER_TARGET
  let names := top.map (fun d => d.drug_name)
  { target := c.target
    nearest_biomarker := c.nearest_biomarker
    hops_from_biomarker := c.hops_from_biomarker
    score := c.score
    evidence := c.evidence
    drug_name := if names.isEmpty then none else some (String.intercalate ", " names)
    drug_list := names
    drug_count := names.length
    drug_details := di }

/-- Final sort key (x['hops_from_biomarker'], -x['score'], x['target']). -/
def ecandLE (a b : ECand) : Prop :=
  a.hops_from_biomarker < b.hops_from_biomarker ∨
    (a.hops_from_biomarker = b.hops_from_biomarker ∧
      (b.score < a.score ∨ (a.score = b.score ∧ pyLE a.target b.target = true)))

instance : DecidableRel ecandLE := fun a b => by
  unfold ecandLE
  infer_instance

/-- Strict three-key comparison. -/
def ecandLT (a b : ECand) : Prop :=
  a.hops_from_biomarker < b.hops_from_biomarker ∨
    (a.hops_from_biomarker = b.hops_from_biomarker ∧
      (b.score < a.score ∨ (a.score = b.score ∧ pyLT a.target b.target = true)))

structure NodeInfo where
  id : String
  label : String
  is_biomarker : Bool
  degree : ℕ
deriving DecidableEq

structure EdgeInfo where
  source : String
  target : String
  weight : ℚ
deriving DecidableEq

structure ResponseData where
  biomarkers : List String
  num_nodes : ℕ
  num_edges : ℕ
  sub_nodes : List NodeInfo
  sub_edges : List EdgeInfo
  candidates : List ECand
deriving DecidableEq

def inducedEdges (G : Graph) (S : List String) : List (String × String × Option ℚ) :=
  G.edges.filter (fun e => S.contains e.1 && S.contains e.2.1)

/-- Degree of `n` within the induced subgraph (a self-loop counts twice, as
in NetworkX). -/
def degreeIn (es : List (String × String × Option ℚ)) (n : String) : ℕ :=
  es.foldl (fun a e => a + (if e.1 = n then 1 else 0) + (if e.2.1 = n then 1 else 0)) 0

def assembleResponse (G : Graph) (bs : List String)
    (cmap : List (String × Candidate)) (mapping : List (String × List DrugEntry)) :
    ResponseData :=
  let S := subNodesOf G bs
  let hn := G.nodes.filter (fun n => S.contains n)
  let he := inducedEdges G S
  { biomarkers := bs
    num_nodes := G.nodes.length
    num_edges := G.edges.length
    sub_nodes := hn.map (fun n =>
      { id := n, label := n, is_biomarker := decide (n ∈ bs), degree := degreeIn he n })
    sub_edges := he.map (fun e => { source := e.1, target := e.2.1, weight := e.2.2.getD 1 })
    candidates := List.insertionSort ecandLE
      (cmap.map (fun p => enrichCandidate mapping p.1 p.2)) }

/-! ## The engine -/

/-- The body of the inner try block: read the CSV, validate, build the graph,
run the capped BFS, enrich, assemble.  Any raised exception is an `error`. -/
def engineBody (bs : List String) (csv : Except String Table) (net : NetResult) :
    Except String ResponseData :=
  match csv with
  | .error e => .error e
  | .ok t =>
    if t.rows.isEmpty then .error "PPI CSV file is empty"
    else if t.numCols < 2 then .error "PPI CSV must have at least two columns (source, target)"
    else
      let G := buildGraph t
      let cmap := candMapOf G bs
      match fetch_dgidb_drugs_via_graphql (cmap.map Prod.fst) net with
      | none => .error "KeyError"
      | some mapping => .ok (assembleResponse G bs cmap mapping)

inductive EngineResult where
  | badRequest : String → EngineResult
  | serverError : String → EngineResult
  | success : ResponseData → EngineResult
deriving DecidableEq

structure RunOutcome where
  result : EngineResult
  tempCreated : Bool
  tempRemoved : Bool
deriving DecidableEq

/-- The try/finally around the body (views.py lines 628, 760-762): whether the
body succeeded or raised, the finally clause checks the temporary file still
exists and removes it; then either the success response is returned or the
outer except turns the exception into the 500 error envelope. -/
def finalizeTemp (r : Except String ResponseData) (tempExists : Bool) : RunOutcome :=
  let removed := tempExists
  match r with
  | .ok resp => { result := .success resp, tempCreated := tempExists, tempRemoved := removed }
  | .error e =>
    { result := .serverError ("Drug repurposing failed: " ++ e)
      tempCreated := tempExists
      tempRemoved := removed }

/-- Biomarker normalisation (views.py line 618). -/
def normBiomarkers (biomarkers : List String) : List String :=
  (biomarkers.map pyStrip).filter (fun b => b != "")

/-- The whole view after upload validation: normalise the biomarkers, reject
an empty list before any temporary file exists, otherwise save the temp file
and run the guarded body. -/
def drug_repurposing_engine (biomarkers : List String) (csv : Except String Table)
    (net : NetResult) : RunOutcome :=
  let bs := normBiomarkers biomarkers
  if bs.isEmpty then
    { result := .badRequest "At least one biomarker is required"
      tempCreated := false
      tempRemoved := false }
  else finalizeTemp (engineBody bs csv net) true

/-! ## Basic lemmas about the score and association lists -/

theorem qscore_spec (d : ℕ) : qscore d = 1 / ((d : ℚ) + 1 / 1000000) := by
  unfold qscore
  rw [Rat.mkRat_eq_div]
  push_cast
  rw [div_eq_div_iff (by positivity) (by positivity)]
  ring

theorem qscore_pos (d : ℕ) : 0 < qscore d := by
  rw [qscore_spec]
  positivity

theorem qscore_lt_iff {a b : ℕ} : qscore a < qscore b ↔ b < a := by
  rw [qscore_spec, qscore_spec]
  rw [div_lt_div_iff₀ (by positivity) (by positivity)]
  constructor
  · intro h
    by_contra hle
    push_neg at hle
    have hc : ((a : ℚ)) ≤ (b : ℚ) := by exact_mod_cast hle
    nlinarith
  · intro h
    have hc : ((b : ℚ)) < (a : ℚ) := by exact_mod_cast h
    nlinarith

theorem qscore_inj {a b : ℕ} (h : qscore a = qscore b) : a = b := by
  by_contra hne
  rcases Nat.lt_or_ge a b with hlt | hge
  · have := qscore_lt_iff.mpr hlt
    rw [h] at this
    exact lt_irrefl _ this
  · rcases Nat.lt_or_ge b a with hlt | hge2
    · have := qscore_lt_iff.mpr hlt
      rw [h] at this
      exact lt_irrefl _ this
    · exact hne (Nat.le_antisymm hge2 hge)

theorem alook_aset_self {α : Type} (m : List (String × α)) (k : String) (v : α) :
    alook (aset m k v) k = some v := by
  induction m with
  | nil => simp [aset, alook]
  | cons p rest ih =>
    obtain ⟨k', v'⟩ := p
    by_cases h : k' = k
    · subst h
      simp [aset, alook]
    · simp [aset, alook, h, ih]

theorem alook_aset_ne {α : Type} (m : List (String × α)) (k k' : String) (v : α)
    (h : k' ≠ k) : alook (aset m k v) k' = alook m k' := by
  induction m with
  | nil => simp [aset, alook, Ne.symm h]
  | cons p rest ih =>
    obtain ⟨k0, v0⟩ := p
    by_cases h0 : k0 = k
    · subst h0
      simp [aset, alook, Ne.symm h]
    · simp only [aset, if_neg h0, alook]
      by_cases h1 : k0 = k'
      · simp [h1]
      · simp [h1, ih]

theorem alook_eq_none_iff {α : Type} (m : List (String × α)) (k : String) :
    alook m k = none ↔ k ∉ m.map Prod.fst := by
  induction m with
  | nil => simp [alook]
  | cons p rest ih =>
    obtain ⟨k', v'⟩ := p
    by_cases h : k' = k
    · subst h
      simp [alook]
    · simp [alook, h, ih, Ne.symm h]

theorem alook_isSome_iff {α : Type} (m : List (String × α)) (k : String) :
    (alook m k).isSome = true ↔ k ∈ m.map Prod.fst := by
  rcases ho : alook m k with _ | v
  · rw [alook_eq_none_iff] at ho
    simp [ho]
  · constructor
    · intro _
      by_contra hmem
      rw [← alook_eq_none_iff] at hmem
      rw [ho] at hmem
      exact Option.noConfusion hmem
    · intro _
      rfl

theorem keys_aset_of_mem {α : Type} (m : List (String × α)) (k : String) (v : α)
    (h : k ∈ m.map Prod.fst) : (aset m k v).map Prod.fst = m.map Prod.fst := by
  induction m with
  | nil => simp at h
  | cons p rest ih =>
    obtain ⟨k', v'⟩ := p
    by_cases h0 : k' = k
    · subst h0
      simp [aset]
    · simp only [List.map_cons, List.mem_cons] at h
      rcases h with h | h
    
      · exact absurd h.symm h0
      · simp [aset, h0, ih h]

theorem keys_aset_of_not_mem {α : Type} (m : List (String × α)) (k : String) (v : α)
    (h : k ∉ m.map Prod.fst) : (aset m k v).map Prod.fst = m.map Prod.fst ++ [k] := by
  induction m with
  | nil => simp [aset]
  | cons p rest ih =>
    obtain ⟨k', v'⟩ := p
    simp only [List.map_cons, List.mem_cons] at h
    push_neg at h
    have hne : k' ≠ k := fun hh => h.1 hh.symm
    simp [aset, hne, ih h.2]

theorem keys_aset_nodup {α : Type} (m : List (String × α)) (k : String) (v : α)
    (h : (m.map Prod.fst).Nodup) : ((aset m k v).map Prod.fst).Nodup := by
  by_cases hm : k ∈ m.map Prod.fst
  · rw [keys_aset_of_mem m k v hm]
    exact h
  · rw [keys_aset_of_not_mem m k v hm]
    simp [List.nodup_append, h, hm]

theorem alook_of_mem_nodup {α : Type} (m : List (String × α)) (k : String) (v : α)
    (hmem : (k, v) ∈ m) (hnd : (m.map Prod.fst).Nodup) : alook m k = some v := by
  induction m with
  | nil => simp at hmem
  | cons p rest ih =>
    obtain ⟨k', v'⟩ := p
    simp only [List.map_cons, List.nodup_cons] at hnd
    rcases List.mem_cons.mp hmem with h | h
    · injection h with h1 h2
      subst h1
      subst h2
      simp [alook]
    · have hne : k' ≠ k := by
        intro he
        subst he
        exact hnd.1 (by simpa using List.mem_map_of_mem Prod.fst h)
      simp [alook, hne, ih h hnd.2]

theorem mem_of_alook {α : Type} (m : List (String × α)) (k : String) (v : α)
    (h : alook m k = some v) : (k, v) ∈ m := by
  induction m with
  | nil => simp [alook] at h
  | cons p rest ih =>
    obtain ⟨k', v'⟩ := p
    by_cases h0 : k' = k
    · subst h0
      simp [alook] at h
      simp [h]
    · simp [alook, h0] at h
      exact List.mem_cons_of_mem _ (ih h)

/-! ## BFS correctness

`Reach G src v n` is the declarative walk relation: `v` is reachable from
`src` in exactly `n` neighbor steps.  `IsHopDist` is the unweighted
shortest-path hop count.  `bfsFrom` is proved to enumerate exactly the nodes
whose hop distance is at most the cutoff, paired with that distance. -/

inductive Reach (G : Graph) (src : String) : String → ℕ → Prop
  | zero : Reach G src src 0
  | succ {w v : String} {n : ℕ} :
      Reach G src w n → v ∈ G.neighbors w → Reach G src v (n + 1)

def IsHopDist (G : Graph) (src v : String) (d : ℕ) : Prop :=
  Reach G src v d ∧ ∀ e, e < d → ¬ Reach G src v e

theorem reach_zero_iff (G : Graph) (src v : String) : Reach G src v 0 ↔ v = src := by
  constructor
  · intro h
    cases h
    rfl
  · intro h
    subst h
    exact Reach.zero

theorem reach_succ_iff (G : Graph) (src v : String) (n : ℕ) :
    Reach G src v (n + 1) ↔ ∃ w, Reach G src w n ∧ v ∈ G.neighbors w := by
  constructor
  · intro h
    cases h with
    | succ hw hv => exact ⟨_, hw, hv⟩
  · rintro ⟨w, hw, hv⟩
    exact Reach.succ hw hv

theorem isHopDist_fun {G : Graph} {src v : String} {d d' : ℕ}
    (h : IsHopDist G src v d) (h' : IsHopDist G src v d') : d = d' := by
  rcases Nat.lt_trichotomy d d' with hlt | heq | hgt
  · exact absurd h.1 (h'.2 d hlt)
  · exact heq
  · exact absurd h'.1 (h.2 d' hgt)

theorem isHopDist_src (G : Graph) (src : String) : IsHopDist G src src 0 :=
  ⟨Reach.zero, fun e he => absurd he (Nat.not_lt_zero e)⟩

theorem isHopDist_zero_iff (G : Graph) (src v : String) :
    IsHopDist G src v 0 ↔ v = src := by
  constructor
  · intro h
    exact (reach_zero_iff G src v).mp h.1
  · intro h
    exact h ▸ isHopDist_src G src

theorem exists_isHopDist_le {G : Graph} {src v : String} :
    ∀ n, Reach G src v n → ∃ d, d ≤ n ∧ IsHopDist G src v d := by
  intro n
  induction n using Nat.strong_induction_on with
  | _ n ih =>
    intro hr
    by_cases h : ∃ e, e < n ∧ Reach G src v e
    · obtain ⟨e, he, hre⟩ := h
      obtain ⟨d, hd, hdist⟩ := ih e he hre
      exact ⟨d, Nat.le_of_lt (Nat.lt_of_le_of_lt hd he), hdist⟩
    · push_neg at h
      exact ⟨n, Nat.le_refl n, hr, h⟩

theorem isHopDist_pred {G : Graph} {src v : String} {n : ℕ}
    (h : IsHopDist G src v (n + 1)) :
    ∃ w, IsHopDist G src w n ∧ v ∈ G.neighbors w := by
  obtain ⟨w, hw, hv⟩ := (reach_succ_iff G src v n).mp h.1
  obtain ⟨d, hd, hdist⟩ := exists_isHopDist_le n hw
  rcases Nat.lt_or_ge d n with hlt | hge
  · exact absurd (Reach.succ hdist.1 hv) (h.2 (d + 1) (by omega))
  · have : d = n := Nat.le_antisymm hd hge
    subst this
    exact ⟨w, hdist, hv⟩

theorem isHopDist_no_gap {G : Graph} {src : String} :
    ∀ e v, IsHopDist G src v e → ∀ d, d ≤ e → ∃ w, IsHopDist G src w d := by
  intro e
  induction e with
  | zero =>
    intro v hv d hd
    interval_cases d
    exact ⟨v, hv⟩
  | succ n ih =>
    intro v hv d hd
    rcases Nat.lt_or_ge d (n + 1) with hlt | hge
    · obtain ⟨w, hw, _⟩ := isHopDist_pred hv
      exact ih w hw d (by omega)
    · have : d = n + 1 := by omega
      subst this
      exact ⟨v, hv⟩

theorem dedupAppend_mem (visited : List String) :
    ∀ (xs acc : List String) (v : String),
      v ∈ dedupAppend visited acc xs ↔ v ∈ acc ∨ (v ∈ xs ∧ v ∉ visited) := by
  intro xs
  induction xs with
  | nil => simp [dedupAppend]
  | cons x rest ih =>
    intro acc v
    have hstep : dedupAppend visited acc (x :: rest) =
        dedupAppend visited (if x ∈ visited ∨ x ∈ acc then acc else acc ++ [x]) rest := by
      simp [dedupAppend]
    rw [hstep, ih]
    by_cases hx : x ∈ visited ∨ x ∈ acc
    · simp only [if_pos hx]
      constructor
      · rintro (h | h)
        · exact Or.inl h
        · exact Or.inr ⟨List.mem_cons_of_mem _ h.1, h.2⟩
      · rintro (h | ⟨h1, h2⟩)
        · exact Or.inl h
        · rcases List.mem_cons.mp h1 with he | he
          · subst he
            rcases hx with hx | hx
            · exact absurd hx h2
            · exact Or.inl hx
          · exact Or.inr ⟨he, h2⟩
    · push_neg at hx
      rw [if_neg (fun hor => hor.elim hx.1 hx.2)]
      constructor
      · rintro (h | h)
        · rcases List.mem_append.mp h with h | h
          · exact Or.inl h
          · simp at h
            rw [h]
            exact Or.inr ⟨List.mem_cons_self x rest, hx.1⟩
        · exact Or.inr ⟨List.mem_cons_of_mem _ h.1, h.2⟩
      · rintro (h | ⟨h1, h2⟩)
        · exact Or.inl (List.mem_append.mpr (Or.inl h))
        · rcases List.mem_cons.mp h1 with he | he
          · subst he
            exact Or.inl (List.mem_append.mpr (Or.inr (by simp)))
          · exact Or.inr ⟨he, h2⟩

theorem nextFrontier_mem (G : Graph) (visited : List String) :
    ∀ (frontier acc : List String) (v : String),
      v ∈ frontier.foldl (fun acc u => dedupAppend visited acc (G.neighbors u)) acc ↔
        v ∈ acc ∨ ((∃ u, u ∈ frontier ∧ v ∈ G.neighbors u) ∧ v ∉ visited) := by
  intro frontier
  induction frontier with
  | nil => simp
  | cons u rest ih =>
    intro acc v
    simp only [List.foldl_cons]
    rw [ih, dedupAppend_mem]
    constructor
    · rintro ((h | h) | h)
      · exact Or.inl h
      · exact Or.inr ⟨⟨u, List.mem_cons_self u rest, h.1⟩, h.2⟩
      · exact Or.inr ⟨⟨h.1.choose, List.mem_cons_of_mem _ h.1.choose_spec.1, h.1.choose_spec.2⟩, h.2⟩
    · rintro (h | ⟨⟨w, hw, hv⟩, hnv⟩)
      · exact Or.inl (Or.inl h)
      · rcases List.mem_cons.mp hw with he | he
        · subst he
          exact Or.inl (Or.inr ⟨hv, hnv⟩)
        · exact Or.inr ⟨⟨w, he, hv⟩, hnv⟩

theorem nextFrontier_mem_iff (G : Graph) (visited frontier : List String) (v : String) :
    v ∈ nextFrontier G visited frontier ↔
      (∃ u, u ∈ frontier ∧ v ∈ G.neighbors u) ∧ v ∉ visited := by
  unfold nextFrontier
  rw [nextFrontier_mem]
  simp

theorem bfsAux_mem (G : Graph) (src : String) :
    ∀ (fuel dp : ℕ) (visited frontier : List String),
      (∀ v, v ∈ visited ↔ ∃ e, e ≤ dp ∧ IsHopDist G src v e) →
      (∀ v, v ∈ frontier ↔ IsHopDist G src v dp) →
      ∀ v e, (v, e) ∈ bfsAux G fuel visited frontier (dp + 1) ↔
        (dp + 1 ≤ e ∧ e ≤ dp + fuel ∧ IsHopDist G src v e) := by
  intro fuel
  induction fuel with
  | zero =>
    intro dp visited frontier _ _ v e
    simp [bfsAux]
    omega
  | succ f ih =>
    intro dp visited frontier hvis hfr v e
    have hnf : ∀ w, w ∈ nextFrontier G visited frontier ↔ IsHopDist G src w (dp + 1) := by
      intro w
      rw [nextFrontier_mem_iff]
      constructor
      · rintro ⟨⟨u, hu, hw⟩, hnv⟩
        have hreach : Reach G src w (dp + 1) := Reach.succ ((hfr u).mp hu).1 hw
        obtain ⟨d, hd, hdist⟩ := exists_isHopDist_le (dp + 1) hreach
        rcases Nat.lt_or_ge d (dp + 1) with hlt | hge
        · exact absurd ((hvis w).mpr ⟨d, by omega, hdist⟩) hnv
        · have : d = dp + 1 := by omega
          subst this
          exact hdist
      · intro hdist
        obtain ⟨u, hu, hw⟩ := isHopDist_pred hdist
        refine ⟨⟨u, (hfr u).mpr hu, hw⟩, ?_⟩
        intro hmem
        obtain ⟨d, hd, hdist'⟩ := (hvis w).mp hmem
        have : d = dp + 1 := isHopDist_fun hdist' hdist
        omega
    show (v, e) ∈ bfsAux G (f + 1) visited frontier (dp + 1) ↔ _
    rw [bfsAux]
    by_cases hempty : (nextFrontier G visited frontier).isEmpty
    · simp only [hempty, if_pos]
      simp only [List.not_mem_nil, false_iff]
      rintro ⟨h1, h2, hdist⟩
      obtain ⟨w, hw⟩ := isHopDist_no_gap e v hdist (dp + 1) h1
      have : w ∈ nextFrontier G visited frontier := (hnf w).mpr hw
      rw [List.isEmpty_iff] at hempty
      rw [hempty] at this
      exact absurd this (List.not_mem_nil w)
    · simp only [hempty, if_neg, Bool.false_eq_true, not_false_iff]
      rw [List.mem_append]
      have hrec := ih (dp + 1) (visited ++ nextFrontier G visited frontier)
        (nextFrontier G visited frontier)
        (by
          intro w
          rw [List.mem_append]
          constructor
          · rintro (h | h)
            · obtain ⟨d, hd, hdist⟩ := (hvis w).mp h
              exact ⟨d, by omega, hdist⟩
            · exact ⟨dp + 1, Nat.le_refl _, (hnf w).mp h⟩
          · rintro ⟨d, hd, hdist⟩
            rcases Nat.lt_or_ge d (dp + 1) with hlt | hge
            · exact Or.inl ((hvis w).mpr ⟨d, by omega, hdist⟩)
            · have : d = dp + 1 := by omega
              subst this
              exact Or.inr ((hnf w).mpr hdist))
        hnf v e
      rw [hrec]
      constructor
      · rintro (h | h)
        · rw [List.mem_map] at h
          obtain ⟨w, hw, heq⟩ := h
          have h1 : w = v := congrArg Prod.fst heq
          have h2 : dp + 1 = e := congrArg Prod.snd heq
          exact ⟨by omega, by omega, h2 ▸ (hnf v).mp (h1 ▸ hw)⟩
        · exact ⟨by omega, by omega, h.2.2⟩
      · rintro ⟨h1, h2, hdist⟩
        rcases Nat.lt_or_ge e (dp + 2) with hlt | hge
        · have : e = dp + 1 := by omega
          subst this
          exact Or.inl (List.mem_map.mpr ⟨v, (hnf v).mpr hdist, rfl⟩)
        · exact Or.inr ⟨by omega, by omega, hdist⟩

theorem bfsFrom_mem (G : Graph) (src : String) (cutoff : ℕ) (v : String) (e : ℕ) :
    (v, e) ∈ bfsFrom G src cutoff ↔ e ≤ cutoff ∧ IsHopDist G src v e := by
  unfold bfsFrom
  rw [List.mem_cons]
  have haux := bfsAux_mem G src cutoff 0 [src] [src]
    (by
      intro w
      simp only [List.mem_singleton]
      constructor
      · intro h
        exact ⟨0, Nat.le_refl 0, h ▸ isHopDist_src G src⟩
      · rintro ⟨d, hd, hdist⟩
        interval_cases d
        exact (isHopDist_zero_iff G src w).mp hdist)
    (by
      intro w
      simp only [List.mem_singleton]
      rw [isHopDist_zero_iff])
    v e
  rw [haux]
  constructor
  · rintro (h | ⟨h1, h2, hdist⟩)
    · have h1 : v = src := congrArg Prod.fst h
      have h2 : e = 0 := congrArg Prod.snd h
      exact ⟨h2 ▸ Nat.zero_le _, h2 ▸ h1 ▸ isHopDist_src G src⟩
    · exact ⟨by omega, hdist⟩
  · rintro ⟨hle, hdist⟩
    rcases Nat.eq_zero_or_pos e with he | he
    · subst he
      have hv : v = src := (isHopDist_zero_iff G src v).mp hdist
      exact Or.inl (by rw [hv])
    · exact Or.inr ⟨by omega, by omega, hdist⟩

theorem bfs_functional {G : Graph} {src : String} {cutoff : ℕ} {v : String} {e e' : ℕ}
    (h : (v, e) ∈ bfsFrom G src cutoff) (h' : (v, e') ∈ bfsFrom G src cutoff) : e = e' :=
  isHopDist_fun ((bfsFrom_mem G src cutoff v e).mp h).2 ((bfsFrom_mem G src cutoff v e').mp h').2

theorem alook_bfs_some {G : Graph} {src : String} {cutoff : ℕ} {v : String} {e : ℕ} :
    alook (bfsFrom G src cutoff) v = some e ↔ (v, e) ∈ bfsFrom G src cutoff := by
  constructor
  · intro h
    exact mem_of_alook _ _ _ h
  · intro h
    have hv : v ∈ (bfsFrom G src cutoff).map Prod.fst :=
      List.mem_map.mpr ⟨(v, e), h, rfl⟩
    rcases ho : alook (bfsFrom G src cutoff) v with _ | e'
    · rw [alook_eq_none_iff] at ho
      exact absurd hv ho
    · have := mem_of_alook _ _ _ ho
      rw [bfs_functional this h]

/-! ## Characterisation of the candidate map

`candDist G s n` is the hop distance the engine's loop would attribute to
node `n` from seed `s`: none when the seed is missing from the graph, when
`n` is the seed itself, or when `n` is beyond the cutoff.  The merge loop is
proved to keep, for every node, the record of the first seed (in biomarker
order) attaining the minimal hop distance. -/

def hopTo (G : Graph) (s n : String) : Option ℕ := alook (bfsFrom G s maxHops) n

def candDist (G : Graph) (s n : String) : Option ℕ :=
  if s ∈ G.nodes then (if n = s then none else hopTo G s n) else none

def mergeB (old : Option Candidate) (s n : String) (d : ℕ) : Option Candidate :=
  match old with
  | none => some (mkCand n s d)
  | some c => if c.score < qscore d then some (mkCand n s d) else some c

def bestStep (cur : Option (String × ℕ)) (s : String) (dOpt : Option ℕ) :
    Option (String × ℕ) :=
  match dOpt with
  | none => cur
  | some d =>
    match cur with
    | none => some (s, d)
    | some (s0, d0) => if qscore d0 < qscore d then some (s, d) else some (s0, d0)

def bestSeed (G : Graph) (bs : List String) (n : String) : Option (String × ℕ) :=
  bs.foldl (fun cur s => bestStep cur s (candDist G s n)) none

theorem mergeB_idem (old : Option Candidate) (s s' n : String) (d : ℕ) :
    mergeB (mergeB old s n d) s' n d = mergeB old s n d := by
  cases old with
  | none => simp [mergeB, mkCand, lt_irrefl]
  | some c =>
    by_cases h : c.score < qscore d
    · simp [mergeB, h, mkCand, lt_irrefl]
    · simp [mergeB, h]

theorem mergeEntry_alook_self (m : List (String × Candidate)) (s n : String) (d : ℕ) :
    alook (mergeEntry m s n d) n = mergeB (alook m n) s n d := by
  unfold mergeEntry mergeB
  cases h : alook m n with
  | none => simp [alook_aset_self]
  | some c =>
    by_cases hc : c.score < qscore d
    · simp [hc, alook_aset_self]
    · simp [hc, h]

theorem mergeEntry_alook_ne (m : List (String × Candidate)) (s n n' : String) (d : ℕ)
    (h : n' ≠ n) : alook (mergeEntry m s n d) n' = alook m n' := by
  unfold mergeEntry
  cases alook m n with
  | none => exact alook_aset_ne m n n' _ h
  | some c =>
    by_cases hc : c.score < qscore d
    · simp only [hc, if_pos]
      exact alook_aset_ne m n n' _ h
    · simp [hc]

theorem seedFold_alook_self (G : Graph) (s : String) :
    ∀ (l : List (String × ℕ)) (m : List (String × Candidate)),
      alook (l.foldl (fun m p => if p.1 = s then m else mergeEntry m s p.1 p.2) m) s =
        alook m s := by
  intro l
  induction l with
  | nil => intro m; rfl
  | cons p rest ih =>
    intro m
    obtain ⟨k, d⟩ := p
    by_cases hk : k = s
    · simp only [List.foldl_cons, hk, if_pos rfl]
      exact ih m
    · simp only [List.foldl_cons, if_neg hk]
      rw [ih, mergeEntry_alook_ne m s k s d (fun h => hk h.symm)]

theorem alook_cons {α : Type} (k : String) (v : α) (rest : List (String × α)) (q : String) :
    alook ((k, v) :: rest) q = if k = q then some v else alook rest q := rfl

theorem seedFold_alook (G : Graph) (s n : String) (hns : n ≠ s) :
    ∀ (l : List (String × ℕ)) (m : List (String × Candidate)),
      (∀ d1 d2, (n, d1) ∈ l → (n, d2) ∈ l → d1 = d2) →
      alook (l.foldl (fun m p => if p.1 = s then m else mergeEntry m s p.1 p.2) m) n =
        (match alook l n with
         | none => alook m n
         | some d => mergeB (alook m n) s n d) := by
  intro l
  induction l with
  | nil => intro m _; rfl
  | cons p rest ih =>
    intro m hfun
    obtain ⟨k, d⟩ := p
    have hfun' : ∀ d1 d2, (n, d1) ∈ rest → (n, d2) ∈ rest → d1 = d2 := by
      intro d1 d2 h1 h2
      exact hfun d1 d2 (List.mem_cons_of_mem _ h1) (List.mem_cons_of_mem _ h2)
    simp only [List.foldl_cons]
    rw [alook_cons]
    by_cases hk : k = s
    · have hkn : ¬ (k = n) := fun h => hns (by rw [← h, hk])
      rw [if_neg hkn]
      have harg : (if (k, d).1 = s then m else mergeEntry m s (k, d).1 (k, d).2) = m := by
        simp [hk]
      rw [harg, ih m hfun']
    · have harg : (if (k, d).1 = s then m else mergeEntry m s (k, d).1 (k, d).2) =
          mergeEntry m s k d := by
        simp [hk]
      rw [harg, ih (mergeEntry m s k d) hfun']
      by_cases hkn : k = n
      · rw [if_pos hkn, ← hkn]
        cases hrest : alook rest k with
        | none => rw [mergeEntry_alook_self]
        | some d' =>
          have hmem1 : (n, d') ∈ (k, d) :: rest := by
            rw [← hkn]
            exact List.mem_cons_of_mem _ (mem_of_alook _ _ _ hrest)
          have hmem2 : (n, d) ∈ (k, d) :: rest := by
            rw [← hkn]
            exact List.mem_cons_self _ _
          have hd : d' = d := hfun d' d hmem1 hmem2
          rw [hd]
          simp only [mergeEntry_alook_self, mergeB_idem]
      · rw [if_neg hkn]
        rw [mergeEntry_alook_ne m s k n d (fun h => hkn h.symm)]

theorem processSeed_alook (G : Graph) (m : List (String × Candidate)) (s n : String) :
    alook (processSeed G m s) n =
      (match candDist G s n with
       | none => alook m n
       | some d => mergeB (alook m n) s n d) := by
  unfold processSeed candDist
  by_cases hs : s ∈ G.nodes
  · simp only [if_pos hs]
    by_cases hns : n = s
    · subst hns
      simp only [if_pos rfl]
      exact seedFold_alook_self G n (bfsFrom G n maxHops) m
    · simp only [if_neg hns]
      rw [seedFold_alook G s n hns (bfsFrom G s maxHops) m
        (fun d1 d2 h1 h2 => bfs_functional h1 h2)]
      rfl
  · simp only [if_neg hs]

theorem candFold_alook (G : Graph) (n : String) :
    ∀ (bs : List String) (m : List (String × Candidate)),
      alook (bs.foldl (processSeed G) m) n =
        bs.foldl
          (fun old s =>
            match candDist G s n with
            | none => old
            | some d => mergeB old s n d)
          (alook m n) := by
  intro bs
  induction bs with
  | nil => intro m; rfl
  | cons s rest ih =>
    intro m
    simp only [List.foldl_cons]
    rw [ih (processSeed G m s), processSeed_alook]

theorem fold_mk_align (G : Graph) (n : String) :
    ∀ (bs : List String) (accP : Option (String × ℕ)),
      bs.foldl
          (fun old s =>
            match candDist G s n with
            | none => old
            | some d => mergeB old s n d)
          (accP.map (fun p => mkCand n p.1 p.2)) =
        (bs.foldl (fun cur s => bestStep cur s (candDist G s n)) accP).map
          (fun p => mkCand n p.1 p.2) := by
  intro bs
  induction bs with
  | nil => intro accP; rfl
  | cons s rest ih =>
    intro accP
    simp only [List.foldl_cons]
    have hstep :
        (match candDist G s n with
         | none => accP.map (fun p => mkCand n p.1 p.2)
         | some d => mergeB (accP.map (fun p => mkCand n p.1 p.2)) s n d) =
          (bestStep accP s (candDist G s n)).map (fun p => mkCand n p.1 p.2) := by
      cases candDist G s n with
      | none => rfl
      | some d =>
        cases accP with
        | none => rfl
        | some p =>
          obtain ⟨s0, d0⟩ := p
          simp only [Option.map_some, mergeB, bestStep, mkCand]
          by_cases hlt : qscore d0 < qscore d
          · simp [hlt]
          · simp [hlt]
    rw [hstep, ih]

theorem candMap_alook (G : Graph) (bs : List String) (n : String) :
    alook (candMapOf G bs) n =
      (bestSeed G bs n).map (fun p => mkCand n p.1 p.2) := by
  unfold candMapOf bestSeed
  rw [candFold_alook]
  have : alook ([] : List (String × Candidate)) n =
      (none : Option (String × ℕ)).map (fun p => mkCand n p.1 p.2) := rfl
  rw [this, fold_mk_align]

theorem bestStep_eq_none_iff (cur : Option (String × ℕ)) (s : String) (dOpt : Option ℕ) :
    bestStep cur s dOpt = none ↔ cur = none ∧ dOpt = none := by
  cases dOpt with
  | none => simp [bestStep]
  | some d =>
    cases cur with
    | none => simp [bestStep]
    | some p =>
      obtain ⟨s0, d0⟩ := p
      by_cases h : qscore d0 < qscore d
      · simp [bestStep, h]
      · simp [bestStep, h]

theorem bestStep_some_of_dist (cur : Option (String × ℕ)) (s : String) (d : ℕ) :
    ∃ q, bestStep cur s (some d) = some q ∧ q.2 ≤ d ∧
      (∀ p0, cur = some p0 → q.2 ≤ p0.2) := by
  cases cur with
  | none => exact ⟨(s, d), rfl, Nat.le_refl d, by simp⟩
  | some p =>
    obtain ⟨s0, d0⟩ := p
    by_cases h : qscore d0 < qscore d
    · refine ⟨(s, d), by simp [bestStep, h], Nat.le_refl d, ?_⟩
      rintro p0 hp0
      injection hp0 with hp0
      rw [← hp0]
      exact Nat.le_of_lt (qscore_lt_iff.mp h)
    · refine ⟨(s0, d0), by simp [bestStep, h], ?_, ?_⟩
      · have : ¬ d < d0 := fun hc => h (qscore_lt_iff.mpr hc)
        omega
      · rintro p0 hp0
        injection hp0 with hp0
        rw [← hp0]

theorem bestFold_none_iff (G : Graph) (n : String) :
    ∀ (bs : List String) (cur : Option (String × ℕ)),
      bs.foldl (fun cur s => bestStep cur s (candDist G s n)) cur = none ↔
        cur = none ∧ ∀ s, s ∈ bs → candDist G s n = none := by
  intro bs
  induction bs with
  | nil => intro cur; simp
  | cons s rest ih =>
    intro cur
    simp only [List.foldl_cons]
    rw [ih, bestStep_eq_none_iff]
    constructor
    · rintro ⟨⟨h1, h2⟩, h3⟩
      refine ⟨h1, ?_⟩
      intro s' hs'
      rcases List.mem_cons.mp hs' with he | he
      · rw [he]; exact h2
      · exact h3 s' he
    · rintro ⟨h1, h2⟩
      exact ⟨⟨h1, h2 s (List.mem_cons_self s rest)⟩,
        fun s' hs' => h2 s' (List.mem_cons_of_mem _ hs')⟩

theorem bestFold_sound (G : Graph) (n : String) :
    ∀ (bs : List String) (cur : Option (String × ℕ)) (q : String × ℕ),
      bs.foldl (fun cur s => bestStep cur s (candDist G s n)) cur = some q →
      cur = some q ∨ (q.1 ∈ bs ∧ candDist G q.1 n = some q.2) := by
  intro bs
  induction bs with
  | nil =>
    intro cur q h
    exact Or.inl h
  | cons s rest ih =>
    intro cur q h
    simp only [List.foldl_cons] at h
    rcases ih (bestStep cur s (candDist G s n)) q h with hL | hR
    · cases hd : candDist G s n with
      | none =>
        rw [hd] at hL
        exact Or.inl hL
      | some d =>
        rw [hd] at hL
        cases cur with
        | none =>
          have hq : q = (s, d) := by
            have : some (s, d) = some q := hL
            injection this with h'
            exact h'.symm
          rw [hq]
          exact Or.inr ⟨List.mem_cons_self s rest, hd⟩
        | some p =>
          obtain ⟨s0, d0⟩ := p
          by_cases hc : qscore d0 < qscore d
          · simp only [bestStep, hc, if_pos] at hL
            have hq : q = (s, d) := by
              injection hL with h'
              exact h'.symm
            rw [hq]
            exact Or.inr ⟨List.mem_cons_self s rest, hd⟩
          · simp only [bestStep, hc, if_neg, Bool.false_eq_true, not_false_iff] at hL
            exact Or.inl hL
    · exact Or.inr ⟨List.mem_cons_of_mem _ hR.1, hR.2⟩

theorem bestFold_min (G : Graph) (n : String) :
    ∀ (bs : List String) (cur : Option (String × ℕ)) (q : String × ℕ),
      bs.foldl (fun cur s => bestStep cur s (candDist G s n)) cur = some q →
      (∀ s d, s ∈ bs → candDist G s n = some d → q.2 ≤ d) ∧
        (∀ p0, cur = some p0 → q.2 ≤ p0.2) := by
  intro bs
  induction bs with
  | nil =>
    intro cur q h
    refine ⟨by simp, ?_⟩
    intro p0 hp0
    rw [hp0] at h
    injection h with h'
    rw [h']
  | cons s rest ih =>
    intro cur q h
    simp only [List.foldl_cons] at h
    obtain ⟨hmin_rest, hmono⟩ := ih (bestStep cur s (candDist G s n)) q h
    have hstep_le : ∀ p0, cur = some p0 → q.2 ≤ p0.2 := by
      intro p0 hp0
      cases hd : candDist G s n with
      | none => exact hmono p0 (by rw [hd] at h ⊢; exact hp0 ▸ rfl)
      | some d =>
        obtain ⟨q1, hq1, _, hq1le⟩ := bestStep_some_of_dist cur s d
        have := hmono q1 (by rw [hd]; exact hq1)
        exact Nat.le_trans this (hq1le p0 hp0)
    refine ⟨?_, hstep_le⟩
    intro s' d hs' hd
    rcases List.mem_cons.mp hs' with he | he
    · rw [he] at hd
      obtain ⟨q1, hq1, hq1d, _⟩ := bestStep_some_of_dist cur s d
      have := hmono q1 (by rw [hd]; exact hq1)
      exact Nat.le_trans this hq1d
    · exact hmin_rest s' d he hd

theorem bestFold_first (G : Graph) (n : String) :
    ∀ (bs : List String) (cur : Option (String × ℕ)) (q : String × ℕ),
      bs.foldl (fun cur s => bestStep cur s (candDist G s n)) cur = some q →
      cur = some q ∨
        (∃ l1 l2, bs = l1 ++ q.1 :: l2 ∧ candDist G q.1 n = some q.2 ∧
          (∀ p0, cur = some p0 → q.2 < p0.2) ∧
          (∀ s' d', s' ∈ l1 → candDist G s' n = some d' → q.2 < d')) := by
  intro bs
  induction bs with
  | nil =>
    intro cur q h
    exact Or.inl h
  | cons s rest ih =>
    intro cur q h
    simp only [List.foldl_cons] at h
    rcases ih (bestStep cur s (candDist G s n)) q h with hL | hR
    · cases hd : candDist G s n with
      | none =>
        rw [hd] at hL
        exact Or.inl hL
      | some d =>
        rw [hd] at hL
        cases cur with
        | none =>
          have hq : q = (s, d) := by
            injection hL with h'
            exact h'.symm
          refine Or.inr ⟨[], rest, by rw [hq]; rfl, by rw [hq]; exact hd, ?_, by simp⟩
          intro p0 hp0
          exact absurd hp0 (by simp)
        | some p =>
          obtain ⟨s0, d0⟩ := p
          by_cases hc : qscore d0 < qscore d
          · simp only [bestStep, hc, if_pos] at hL
            have hq : q = (s, d) := by
              injection hL with h'
              exact h'.symm
            refine Or.inr ⟨[], rest, by rw [hq]; rfl, by rw [hq]; exact hd, ?_, by simp⟩
            rintro p0 hp0
            injection hp0 with hp0
            rw [← hp0, hq]
            exact qscore_lt_iff.mp hc
          · simp only [bestStep, hc, if_neg, Bool.false_eq_true, not_false_iff] at hL
            exact Or.inl hL
    · obtain ⟨l1, l2, heq, hdist, haccstrict, hl1⟩ := hR
      refine Or.inr ⟨s :: l1, l2, by rw [heq]; rfl, hdist, ?_, ?_⟩
      · intro p0 hp0
        cases hd : candDist G s n with
        | none =>
          refine haccstrict p0 ?_
          rw [hd] at haccstrict ⊢
          exact hp0 ▸ rfl
        | some d =>
          obtain ⟨q1, hq1, _, hq1le⟩ := bestStep_some_of_dist cur s d
          have := haccstrict q1 (by rw [hd]; exact hq1)
          exact Nat.lt_of_lt_of_le this (hq1le p0 hp0)
      · intro s' d' hs' hd'
        rcases List.mem_cons.mp hs' with he | he
        · rw [he] at hd'
          obtain ⟨q1, hq1, hq1d, _⟩ := bestStep_some_of_dist cur s d'
          have := haccstrict q1 (by rw [hd']; exact hq1)
          exact Nat.lt_of_lt_of_le this hq1d
        · exact hl1 s' d' he hd'

/-! ## Structural invariants of the candidate map -/

theorem keys_mergeEntry_nodup (m : List (String × Candidate)) (s n : String) (d : ℕ)
    (h : (m.map Prod.fst).Nodup) : ((mergeEntry m s n d).map Prod.fst).Nodup := by
  unfold mergeEntry
  cases alook m n with
  | none => exact keys_aset_nodup m n _ h
  | some c =>
    by_cases hc : c.score < qscore d
    · simp only [hc, if_pos]
      exact keys_aset_nodup m n _ h
    · simp [hc, h]

theorem keys_processSeed_nodup (G : Graph) (s : String) :
    ∀ (l : List (String × ℕ)) (m : List (String × Candidate)),
      (m.map Prod.fst).Nodup →
      (((l.foldl (fun m p => if p.1 = s then m else mergeEntry m s p.1 p.2) m)).map
        Prod.fst).Nodup := by
  intro l
  induction l with
  | nil => intro m h; exact h
  | cons p rest ih =>
    intro m h
    obtain ⟨k, d⟩ := p
    simp only [List.foldl_cons]
    by_cases hk : k = s
    · simp only [hk, if_pos rfl]
      exact ih m h
    · have harg : (if (k, d).1 = s then m else mergeEntry m s (k, d).1 (k, d).2) =
          mergeEntry m s k d := by simp [hk]
      rw [harg]
      exact ih _ (keys_mergeEntry_nodup m s k d h)

theorem candMap_keys_nodup (G : Graph) (bs : List String) :
    ((candMapOf G bs).map Prod.fst).Nodup := by
  unfold candMapOf
  suffices h : ∀ (bs : List String) (m : List (String × Candidate)),
      (m.map Prod.fst).Nodup → ((bs.foldl (processSeed G) m).map Prod.fst).Nodup by
    exact h bs [] (by simp)
  intro bs
  induction bs with
  | nil => intro m h; exact h
  | cons b rest ih =>
    intro m h
    simp only [List.foldl_cons]
    refine ih _ ?_
    unfold processSeed
    by_cases hb : b ∈ G.nodes
    · simp only [if_pos hb]
      exact keys_processSeed_nodup G b _ m h
    · simp only [if_neg hb]
      exact h

theorem candMap_mem_iff_alook {G : Graph} {bs : List String} {n : String} {c : Candidate} :
    (n, c) ∈ candMapOf G bs ↔ alook (candMapOf G bs) n = some c := by
  constructor
  · intro h
    exact alook_of_mem_nodup _ _ _ h (candMap_keys_nodup G bs)
  · intro h
    exact mem_of_alook _ _ _ h

/-! ## Facts about candDist -/

theorem candDist_spec {G : Graph} {s n : String} {d : ℕ}
    (h : candDist G s n = some d) :
    s ∈ G.nodes ∧ n ≠ s ∧ 1 ≤ d ∧ d ≤ maxHops ∧ IsHopDist G s n d := by
  unfold candDist at h
  by_cases hs : s ∈ G.nodes
  · rw [if_pos hs] at h
    by_cases hns : n = s
    · rw [if_pos hns] at h
      exact Option.noConfusion h
    · rw [if_neg hns] at h
      unfold hopTo at h
      have hmem := alook_bfs_some.mp h
      obtain ⟨hle, hdist⟩ := (bfsFrom_mem G s maxHops n d).mp hmem
      refine ⟨hs, hns, ?_, hle, hdist⟩
      rcases Nat.eq_zero_or_pos d with h0 | h1
      · subst h0
        exact absurd ((isHopDist_zero_iff G s n).mp hdist) hns
      · exact h1
  · rw [if_neg hs] at h
    exact Option.noConfusion h

theorem candDist_of_isHopDist {G : Graph} {s n : String} {d : ℕ}
    (hs : s ∈ G.nodes) (hns : n ≠ s) (hd : IsHopDist G s n d) (hle : d ≤ maxHops) :
    candDist G s n = some d := by
  unfold candDist hopTo
  rw [if_pos hs, if_neg hns]
  exact alook_bfs_some.mpr ((bfsFrom_mem G s maxHops n d).mpr ⟨hle, hd⟩)

/-! ## Edge weights never influence the traversal -/

def Graph.mapWeights (G : Graph) (f : Option ℚ → Option ℚ) : Graph :=
  { nodes := G.nodes, edges := G.edges.map (fun e => (e.1, e.2.1, f e.2.2)) }

theorem neighbors_mapWeights (G : Graph) (f : Option ℚ → Option ℚ) (u : String) :
    (G.mapWeights f).neighbors u = G.neighbors u := by
  unfold Graph.neighbors Graph.mapWeights
  simp only [List.any_map]
  rfl

theorem nextFrontier_mapWeights (G : Graph) (f : Option ℚ → Option ℚ)
    (visited frontier : List String) :
    nextFrontier (G.mapWeights f) visited frontier = nextFrontier G visited frontier := by
  unfold nextFrontier
  congr 1
  funext acc u
  rw [neighbors_mapWeights]

theorem bfsAux_mapWeights (G : Graph) (f : Option ℚ → Option ℚ) :
    ∀ (fuel : ℕ) (visited frontier : List String) (d : ℕ),
      bfsAux (G.mapWeights f) fuel visited frontier d = bfsAux G fuel visited frontier d := by
  intro fuel
  induction fuel with
  | zero => intro visited frontier d; rfl
  | succ fu ih =>
    intro visited frontier d
    show bfsAux (G.mapWeights f) (fu + 1) visited frontier d = _
    rw [bfsAux, bfsAux, nextFrontier_mapWeights, ih]

theorem bfsFrom_mapWeights (G : Graph) (f : Option ℚ → Option ℚ) (src : String)
    (cutoff : ℕ) : bfsFrom (G.mapWeights f) src cutoff = bfsFrom G src cutoff := by
  unfold bfsFrom
  rw [bfsAux_mapWeights]

theorem processSeed_mapWeights (G : Graph) (f : Option ℚ → Option ℚ)
    (m : List (String × Candidate)) (s : String) :
    processSeed (G.mapWeights f) m s = processSeed G m s := by
  unfold processSeed
  rw [bfsFrom_mapWeights]
  rfl

theorem candMapOf_mapWeights (G : Graph) (f : Option ℚ → Option ℚ) (bs : List String) :
    candMapOf (G.mapWeights f) bs = candMapOf G bs := by
  unfold candMapOf
  congr 1
  funext m s
  exact processSeed_mapWeights G f m s

/-! ## Enrichment client lemmas -/

def isFailNet : NetResult → Bool
  | .netError => true
  | .ok status body =>
    status != 200 ||
      (match body with
       | .nonJson => true
       | .json he _ => he)

theorem fetch_fail_empty (genes : List String) (net : NetResult)
    (h : isFailNet net = true) :
    fetch_dgidb_drugs_via_graphql genes net = some [] := by
  unfold fetch_dgidb_drugs_via_graphql
  by_cases hg : genes.isEmpty
  · simp [hg]
  · simp only [hg, Bool.false_eq_true, if_neg, not_false_iff]
    by_cases hu : (uniqueGenes genes).isEmpty
    · simp [hu]
    · simp only [hu, Bool.false_eq_true, if_neg, not_false_iff]
      cases net with
      | netError => rfl
      | ok status body =>
        unfold isFailNet at h
        by_cases hst : status = 200
        · subst hst
          simp only [bne_self_eq_false, Bool.false_or] at h
          cases body with
          | nonJson => simp
          | json he nodes =>
            simp only at h
            subst h
            simp
        · have : status ≠ 200 := hst
          simp [this]

theorem fetch_ok_empty_nodes (genes : List String) :
    fetch_dgidb_drugs_via_graphql genes (.ok 200 (.json false [])) = some [] := by
  unfold fetch_dgidb_drugs_via_graphql
  by_cases hg : genes.isEmpty
  · simp [hg]
  · by_cases hu : (uniqueGenes genes).isEmpty
    · simp [hg, hu]
    · simp [hg, hu, parseNodes]

theorem alook_append {α : Type} (m1 m2 : List (String × α)) (k : String) :
    alook (m1 ++ m2) k =
      (match alook m1 k with
       | some v => some v
       | none => alook m2 k) := by
  induction m1 with
  | nil => rfl
  | cons p rest ih =>
    obtain ⟨k', v'⟩ := p
    by_cases h : k' = k
    · simp [alook, h]
    · simp [alook, h, ih]

theorem initKeys_cons (g : String) (rest : List String)
    (m : List (String × List DrugEntry)) :
    initKeys (g :: rest) m =
      initKeys rest (if (alook m g).isSome = true then m else m ++ [(g, [])]) := rfl

theorem initKeys_mono (ug : List String) :
    ∀ (m : List (String × List DrugEntry)) (k : String),
      (alook m k).isSome = true → (alook (initKeys ug m) k).isSome = true := by
  induction ug with
  | nil => intro m k h; exact h
  | cons g rest ih =>
    intro m k h
    rw [initKeys_cons]
    refine ih _ k ?_
    by_cases hg : (alook m g).isSome = true
    · rw [if_pos hg]
      exact h
    · rw [if_neg hg, alook_append]
      rcases hm : alook m k with _ | v
    
      · rw [hm] at h
        exact absurd h (by simp)
      · simp
    

theorem initKeys_isSome (ug : List String) :
    ∀ (m : List (String × List DrugEntry)) (g : String), g ∈ ug →
      (alook (initKeys ug m) g).isSome = true := by
  induction ug with
  | nil =>
    intro m g h
    exact absurd h (List.not_mem_nil g)
  | cons g0 rest ih =>
    intro m g h
    rw [initKeys_cons]
    rcases List.mem_cons.mp h with he | he
    · subst he
      refine initKeys_mono rest _ g ?_
      by_cases hg : (alook m g).isSome = true
      · rw [if_pos hg]
        exact hg
      · rw [if_neg hg, alook_append]
        rcases hm : alook m g with _ | v
        · simp [alook]
        · rw [hm] at hg
          exact absurd rfl hg
    · exact ih _ g he

theorem initKeys_keys_sub (ug : List String) :
    ∀ (m : List (String × List DrugEntry)) (k : String),
      k ∈ (initKeys ug m).map Prod.fst → k ∈ m.map Prod.fst ∨ k ∈ ug := by
  induction ug with
  | nil => intro m k h; exact Or.inl h
  | cons g rest ih =>
    intro m k h
    rw [initKeys_cons] at h
    rcases ih _ k h with hm | hr
    · by_cases hg : (alook m g).isSome = true
      · rw [if_pos hg] at hm
        exact Or.inl hm
      · rw [if_neg hg] at hm
        rw [List.map_append, List.mem_append] at hm
        rcases hm with hm | hm
        · exact Or.inl hm
        · simp at hm
          rw [hm]
          exact Or.inr (List.mem_cons_self g rest)
    · exact Or.inr (List.mem_cons_of_mem _ hr)

theorem initKeys_mem_val (ug : List String) :
    ∀ (m : List (String × List DrugEntry)) (p : String × List DrugEntry),
      p ∈ initKeys ug m → p ∈ m ∨ p.2 = [] := by
  induction ug with
  | nil => intro m p h; exact Or.inl h
  | cons g rest ih =>
    intro m p h
    rw [initKeys_cons] at h
    rcases ih _ p h with hm | hr
    · by_cases hg : (alook m g).isSome = true
      · rw [if_pos hg] at hm
        exact Or.inl hm
      · rw [if_neg hg] at hm
        rcases List.mem_append.mp hm with hm | hm
        · exact Or.inl hm
        · simp at hm
          rw [hm]
          exact Or.inr rfl
    · exact Or.inr hr

theorem bump_isSome :
    ∀ (m : List (String × List DrugEntry)) (k : String) (e : DrugEntry),
      (alook m k).isSome = true → ∃ m', bump m k e = some m' := by
  intro m
  induction m with
  | nil =>
    intro k e h
    exact absurd h (by simp [alook])
  | cons p rest ih =>
    intro k e h
    obtain ⟨k', l⟩ := p
    by_cases hk : k' = k
    · exact ⟨(k', l ++ [e]) :: rest, by simp [bump, hk]⟩
    · rw [alook_cons, if_neg hk] at h
      obtain ⟨m'', hm''⟩ := ih k e h
      exact ⟨(k', l) :: m'', by simp [bump, hk, hm'']⟩

theorem bump_keys :
    ∀ (m : List (String × List DrugEntry)) (k : String) (e : DrugEntry)
      (m' : List (String × List DrugEntry)),
      bump m k e = some m' → m'.map Prod.fst = m.map Prod.fst := by
  intro m
  induction m with
  | nil =>
    intro k e m' h
    exact Option.noConfusion h
  | cons p rest ih =>
    intro k e m' h
    obtain ⟨k', l⟩ := p
    by_cases hk : k' = k
    · have hb : bump ((k', l) :: rest) k e = some ((k', l ++ [e]) :: rest) := by
        simp [bump, hk]
      rw [hb] at h
      injection h with h
      rw [← h]
      simp
    · simp only [bump, hk, if_neg, Bool.false_eq_true, not_false_iff] at h
      cases hr : bump rest k e with
      | none =>
        rw [hr] at h
        exact Option.noConfusion h
      | some r =>
        rw [hr] at h
        have h := Option.some.inj h
        rw [← h]
        simp [ih k e r hr]

theorem bump_mem_val :
    ∀ (m : List (String × List DrugEntry)) (k : String) (e : DrugEntry)
      (m' : List (String × List DrugEntry)),
      bump m k e = some m' →
      ∀ p, p ∈ m' → ∀ x, x ∈ p.2 →
        (∃ l, (p.1, l) ∈ m ∧ x ∈ l) ∨ (p.1 = k ∧ x = e) := by
  intro m
  induction m with
  | nil =>
    intro k e m' h
    exact Option.noConfusion h
  | cons q rest ih =>
    intro k e m' h p hp x hx
    obtain ⟨k', l⟩ := q
    by_cases hk : k' = k
    · have hb : bump ((k', l) :: rest) k e = some ((k', l ++ [e]) :: rest) := by
        simp [bump, hk]
      rw [hb] at h
      injection h with h
      rw [← h] at hp
      rcases List.mem_cons.mp hp with he | he
      · have hp1 : p.1 = k' := by rw [he]
        have hp2 : p.2 = l ++ [e] := by rw [he]
        rw [hp2] at hx
        rcases List.mem_append.mp hx with hxl | hxe
        · exact Or.inl ⟨l, by rw [hp1]; exact List.mem_cons_self _ _, hxl⟩
        · simp at hxe
          exact Or.inr ⟨by rw [hp1, hk], hxe⟩
      · exact Or.inl ⟨p.2, List.mem_cons_of_mem _ he, hx⟩
    · simp only [bump, hk, if_neg, Bool.false_eq_true, not_false_iff] at h
      cases hr : bump rest k e with
      | none =>
        rw [hr] at h
        exact Option.noConfusion h
      | some r =>
        rw [hr] at h
        have h := Option.some.inj h
        rw [← h] at hp
        rcases List.mem_cons.mp hp with he | he
        · have hp1 : p.1 = k' := by rw [he]
          have hp2 : p.2 = l := by rw [he]
          rw [hp2] at hx
          exact Or.inl ⟨l, by rw [hp1]; exact List.mem_cons_self _ _, hx⟩
        · rcases ih k e r hr p he x hx with hL | hR
          · obtain ⟨l0, hl0, hxl0⟩ := hL
            exact Or.inl ⟨l0, List.mem_cons_of_mem _ hl0, hxl0⟩
          · exact Or.inr hR

theorem getD_mem_of_lt (ug : List String) :
    ∀ (gi : ℕ), gi < ug.length → ug.getD gi "" ∈ ug := by
  induction ug with
  | nil =>
    intro gi h
    exact absurd h (by simp)
  | cons g rest ih =>
    intro gi h
    cases gi with
    | zero => exact List.mem_cons_self g rest
    | succ n =>
      simp only [List.getD_cons_succ]
      exact List.mem_cons_of_mem _ (ih n (by simpa using h))

/-- The provenance of an attributed drug entry: it comes from an interaction
of a node whose first occurrence in the node list sits at a position below
the number of unique requested genes, and it is keyed by the uppercased gene
at that position. -/
def entryFrom (ug : List String) (nodes : List GeneNode) (k : String) (e : DrugEntry) :
    Prop :=
  ∃ gn inter, gn ∈ nodes ∧ inter ∈ gn.interactions ∧
    firstIdx nodes gn < ug.length ∧
    k = pyUpper (ug.getD (firstIdx nodes gn) "") ∧
    e = mkEntry inter ((interDrugName inter).getD "")

def ParseInv (ug : List String) (nodes : List GeneNode)
    (m : List (String × List DrugEntry)) : Prop :=
  (∀ k, k ∈ m.map Prod.fst → k ∈ ug) ∧
    (∀ p, p ∈ m → ∀ e, e ∈ p.2 → entryFrom ug nodes p.1 e)

theorem initKeys_parseInv {ug : List String} {nodes : List GeneNode}
    {m : List (String × List DrugEntry)} (h : ParseInv ug nodes m) :
    ParseInv ug nodes (initKeys ug m) := by
  constructor
  · intro k hk
    rcases initKeys_keys_sub ug m k hk with hm | hu
    · exact h.1 k hm
    · exact hu
  · intro p hp e he
    rcases initKeys_mem_val ug m p hp with hm | hnil
    · exact h.2 p hm e he
    · rw [hnil] at he
      exact absurd he (List.not_mem_nil e)

theorem processInter_spec {ug : List String} {nodes : List GeneNode} {gn : GeneNode}
    (hU : ∀ g, g ∈ ug → pyUpper g = g) (hgn : gn ∈ nodes) (inter : Interaction)
    (hinter : inter ∈ gn.interactions) (m : List (String × List DrugEntry))
    (hm : ParseInv ug nodes m) :
    ∃ m', processInter ug nodes gn m inter = some m' ∧ ParseInv ug nodes m' := by
  unfold processInter
  by_cases hf : falsyName (interDrugName inter) = true
  · exact ⟨m, by simp [hf], hm⟩
  · simp only [hf, Bool.false_eq_true, if_neg, not_false_iff]
    have hinv1 := @initKeys_parseInv ug nodes m hm
    by_cases hgi : firstIdx nodes gn < ug.length
    · simp only [hgi, if_pos]
      have hkmem : ug.getD (firstIdx nodes gn) "" ∈ ug :=
        getD_mem_of_lt ug (firstIdx nodes gn) hgi
      have hkfix : pyUpper (ug.getD (firstIdx nodes gn) "") = ug.getD (firstIdx nodes gn) "" :=
        hU _ hkmem
      have hsome : (alook (initKeys ug m) (pyUpper (ug.getD (firstIdx nodes gn) ""))).isSome
          = true := by
        rw [hkfix]
        exact initKeys_isSome ug m _ hkmem
      obtain ⟨m', hm'⟩ := bump_isSome (initKeys ug m) _
        (mkEntry inter ((interDrugName inter).getD "")) hsome
      refine ⟨m', hm', ?_, ?_⟩
      · intro k hk
        rw [bump_keys _ _ _ _ hm'] at hk
        exact hinv1.1 k hk
      · intro p hp e he
        rcases bump_mem_val _ _ _ _ hm' p hp e he with hOld | hNew
        · obtain ⟨l0, hl0, hel0⟩ := hOld
          exact hinv1.2 (p.1, l0) hl0 e hel0
        · refine ⟨gn, inter, hgn, hinter, hgi, hNew.1, hNew.2⟩
    · simp only [hgi, if_neg, not_false_iff]
      exact ⟨initKeys ug m, rfl, hinv1⟩

theorem interFold_spec {ug : List String} {nodes : List GeneNode} {gn : GeneNode}
    (hU : ∀ g, g ∈ ug → pyUpper g = g) (hgn : gn ∈ nodes) :
    ∀ (inters : List Interaction), (∀ i, i ∈ inters → i ∈ gn.interactions) →
      ∀ m, ParseInv ug nodes m →
        ∃ m', inters.foldlM (processInter ug nodes gn) m = some m' ∧ ParseInv ug nodes m' := by
  intro inters
  induction inters with
  | nil =>
    intro _ m hm
    exact ⟨m, rfl, hm⟩
  | cons i rest ih =>
    intro hsub m hm
    obtain ⟨m1, hm1, hinv1⟩ :=
      processInter_spec hU hgn i (hsub i (List.mem_cons_self i rest)) m hm
    obtain ⟨m', hm', hinv'⟩ := ih (fun j hj => hsub j (List.mem_cons_of_mem _ hj)) m1 hinv1
    refine ⟨m', ?_, hinv'⟩
    rw [List.foldlM_cons, hm1]
    exact hm'

theorem nodesFold_spec {ug : List String} {nodes : List GeneNode}
    (hU : ∀ g, g ∈ ug → pyUpper g = g) :
    ∀ (ns : List GeneNode), (∀ x, x ∈ ns → x ∈ nodes) →
      ∀ m, ParseInv ug nodes m →
        ∃ m', ns.foldlM
            (fun m gn => gn.interactions.foldlM (processInter ug nodes gn) m) m = some m' ∧
          ParseInv ug nodes m' := by
  intro ns
  induction ns with
  | nil =>
    intro _ m hm
    exact ⟨m, rfl, hm⟩
  | cons gn rest ih =>
    intro hsub m hm
    obtain ⟨m1, hm1, hinv1⟩ :=
      interFold_spec hU (hsub gn (List.mem_cons_self gn rest)) gn.interactions
        (fun i hi => hi) m hm
    obtain ⟨m', hm', hinv'⟩ := ih (fun x hx => hsub x (List.mem_cons_of_mem _ hx)) m1 hinv1
    refine ⟨m', ?_, hinv'⟩
    rw [List.foldlM_cons, hm1]
    exact hm'

theorem parseNodes_spec (ug : List String) (nodes : List GeneNode)
    (hU : ∀ g, g ∈ ug → pyUpper g = g) :
    ∃ m, parseNodes ug nodes = some m ∧ ParseInv ug nodes m := by
  unfold parseNodes
  exact nodesFold_spec hU nodes (fun x hx => hx) []
    ⟨fun k hk => absurd hk (by simp), fun p hp => absurd hp (by simp)⟩

theorem mem_uniqueGenes {u : String} {genes : List String} (h : u ∈ uniqueGenes genes) :
    ∃ g, g ∈ genes ∧ u = pyStrip g := by
  unfold uniqueGenes at h
  rw [(List.perm_insertionSort _ _).mem_iff] at h
  rw [List.mem_dedup] at h
  rw [List.mem_filter] at h
  obtain ⟨hmem, _⟩ := h
  obtain ⟨g, hg, heq⟩ := List.mem_map.mp hmem
  exact ⟨g, hg, heq.symm⟩

theorem fetch_ok_spec (genes : List String) (nodes : List GeneNode)
    (hU : ∀ g, g ∈ genes → pyUpper (pyStrip g) = pyStrip g) :
    ∃ m, fetch_dgidb_drugs_via_graphql genes (.ok 200 (.json false nodes)) = some m ∧
      (∀ k, k ∈ m.map Prod.fst → ∃ g, g ∈ genes ∧ k = pyUpper (pyStrip g)) ∧
      (∀ p, p ∈ m → ∀ e, e ∈ p.2 → entryFrom (uniqueGenes genes) nodes p.1 e) := by
  have hU' : ∀ u, u ∈ uniqueGenes genes → pyUpper u = u := by
    intro u hu
    obtain ⟨g, hg, he⟩ := mem_uniqueGenes hu
    rw [he]
    exact hU g hg
  unfold fetch_dgidb_drugs_via_graphql
  by_cases hg : genes.isEmpty
  · refine ⟨[], by simp [hg], ?_, ?_⟩
    · intro k hk
      exact absurd hk (by simp)
    · intro p hp
      exact absurd hp (by simp)
  · by_cases hu : (uniqueGenes genes).isEmpty
    · refine ⟨[], by simp [hg, hu], ?_, ?_⟩
      · intro k hk
        exact absurd hk (by simp)
      · intro p hp
        exact absurd hp (by simp)
    · obtain ⟨m, hm, hinv⟩ := parseNodes_spec (uniqueGenes genes) nodes hU'
      refine ⟨m, by simp [hg, hu, hm], ?_, hinv.2⟩
      intro k hk
      obtain ⟨g, hgm, he⟩ := mem_uniqueGenes (hinv.1 k hk)
      exact ⟨g, hgm, by rw [he]; exact (hU g hgm).symm⟩

/-! ## The code-point lexicographic order on strings -/

theorem charToNat_inj {a b : Char} (h : a.toNat = b.toNat) : a = b := by
  apply Char.ext
  exact UInt32.toNat.inj h

theorem charListLT_irrefl : ∀ l : List Char, charListLT l l = false := by
  intro l
  induction l with
  | nil => rfl
  | cons a as ih => simp [charListLT, ih]

theorem charListLT_asymm :
    ∀ l1 l2 : List Char, charListLT l1 l2 = true → charListLT l2 l1 = false := by
  intro l1
  induction l1 with
  | nil =>
    intro l2 h
    cases l2 with
    | nil => exact absurd h (by simp [charListLT])
    | cons b bs => rfl
  | cons a as ih =>
    intro l2 h
    cases l2 with
    | nil => exact absurd h (by simp [charListLT])
    | cons b bs =>
      by_cases hab : a = b
      · rw [charListLT, if_pos hab] at h
        rw [charListLT, if_pos hab.symm]
        exact ih bs h
      · rw [charListLT, if_neg hab] at h
        rw [charListLT, if_neg (fun hba => hab hba.symm)]
        simp only [decide_eq_true_eq] at h
        simp only [decide_eq_false_iff_not]
        omega

theorem charListLT_trans :
    ∀ l1 l2 l3 : List Char, charListLT l1 l2 = true → charListLT l2 l3 = true →
      charListLT l1 l3 = true := by
  intro l1
  induction l1 with
  | nil =>
    intro l2 l3 h12 h23
    cases l2 with
    | nil => exact h23
    | cons b bs =>
      cases l3 with
      | nil => exact absurd h23 (by simp [charListLT])
      | cons c cs => rfl
  | cons a as ih =>
    intro l2 l3 h12 h23
    cases l2 with
    | nil => exact absurd h12 (by simp [charListLT])
    | cons b bs =>
      cases l3 with
      | nil => exact absurd h23 (by simp [charListLT])
      | cons c cs =>
        by_cases hab : a = b
        · rw [charListLT, if_pos hab] at h12
          by_cases hbc : b = c
          · rw [charListLT, if_pos hbc] at h23
            rw [charListLT, if_pos (hab.trans hbc)]
            exact ih bs cs h12 h23
          · rw [charListLT, if_neg hbc] at h23
            rw [charListLT, if_neg (fun hac => hbc (hab.symm.trans hac))]
            rw [hab]
            exact h23
        · rw [charListLT, if_neg hab] at h12
          simp only [decide_eq_true_eq] at h12
          by_cases hbc : b = c
          · rw [charListLT, if_neg (fun hac => hab (hac.trans hbc.symm))]
            simp only [decide_eq_true_eq]
            rw [← hbc]
            exact h12
          · rw [charListLT, if_neg hbc] at h23
            simp only [decide_eq_true_eq] at h23
            have hlt : a.toNat < c.toNat := Nat.lt_trans h12 h23
            have hac : a ≠ c := by
              intro he
              rw [he] at hlt
              omega
            rw [charListLT, if_neg hac]
            simp only [decide_eq_true_eq]
            exact hlt

theorem charListLT_connex :
    ∀ l1 l2 : List Char, l1 ≠ l2 → charListLT l1 l2 = true ∨ charListLT l2 l1 = true := by
  intro l1
  induction l1 with
  | nil =>
    intro l2 h
    cases l2 with
    | nil => exact absurd rfl h
    | cons b bs => exact Or.inl rfl
  | cons a as ih =>
    intro l2 h
    cases l2 with
    | nil => exact Or.inr rfl
    | cons b bs =>
      by_cases hab : a = b
      · have hne : as ≠ bs := by
          intro he
          exact h (by rw [hab, he])
        rcases ih bs hne with hl | hr
        · exact Or.inl (by rw [charListLT, if_pos hab]; exact hl)
        · exact Or.inr (by rw [charListLT, if_pos hab.symm]; exact hr)
      · have hnat : a.toNat ≠ b.toNat := fun he => hab (charToNat_inj he)
        rcases Nat.lt_or_ge a.toNat b.toNat with hlt | hge
        · exact Or.inl (by rw [charListLT, if_neg hab]; simp [hlt])
        · have hgt : b.toNat < a.toNat := by omega
          exact Or.inr
            (by rw [charListLT, if_neg (fun hba => hab hba.symm)]; simp [hgt])

theorem pyLT_irrefl (a : String) : pyLT a a = false := charListLT_irrefl a.data

theorem pyLT_asymm {a b : String} (h : pyLT a b = true) : pyLT b a = false :=
  charListLT_asymm a.data b.data h

theorem pyLT_trans {a b c : String} (h1 : pyLT a b = true) (h2 : pyLT b c = true) :
    pyLT a c = true :=
  charListLT_trans a.data b.data c.data h1 h2

theorem pyLT_connex {a b : String} (h : a ≠ b) :
    pyLT a b = true ∨ pyLT b a = true := by
  refine charListLT_connex a.data b.data ?_
  intro hd
  exact h (String.ext hd)

theorem pyLE_total (a b : String) : pyLE a b = true ∨ pyLE b a = true := by
  unfold pyLE
  cases hba : pyLT b a with
  | false => exact Or.inl (by simp)
  | true =>
    have := pyLT_asymm hba
    exact Or.inr (by simp [this])

theorem pyLE_antisymm {a b : String} (h1 : pyLE a b = true) (h2 : pyLE b a = true) :
    a = b := by
  by_contra hne
  unfold pyLE at h1 h2
  rcases pyLT_connex hne with hl | hr
  · rw [hl] at h2
    exact absurd h2 (by simp)
  · rw [hr] at h1
    exact absurd h1 (by simp)

theorem pyLE_trans {a b c : String} (h1 : pyLE a b = true) (h2 : pyLE b c = true) :
    pyLE a c = true := by
  unfold pyLE at h1 h2 ⊢
  cases hca : pyLT c a with
  | false => simp
  | true =>
    exfalso
    by_cases hcb : c = b
    · rw [hcb] at hca
      rw [hca] at h1
      exact absurd h1 (by simp)
    · rcases pyLT_connex hcb with hl | hr
      · rw [hl] at h2
        exact absurd h2 (by simp)
      · have := pyLT_trans hr hca
        rw [this] at h1
        exact absurd h1 (by simp)

theorem pyLT_of_pyLE_ne {a b : String} (h1 : pyLE a b = true) (h2 : a ≠ b) :
    pyLT a b = true := by
  rcases pyLT_connex h2 with hl | hr
  · exact hl
  · unfold pyLE at h1
    rw [hr] at h1
    exact absurd h1 (by simp)

/-! ## The three-key candidate order is total, transitive, and strict on
distinct targets -/

instance : IsTotal ECand ecandLE := by
  constructor
  intro a b
  unfold ecandLE
  rcases Nat.lt_trichotomy a.hops_from_biomarker b.hops_from_biomarker with h | h | h
  · exact Or.inl (Or.inl h)
  · rcases lt_trichotomy a.score b.score with hs | hs | hs
    · exact Or.inr (Or.inr ⟨h.symm, Or.inl hs⟩)
    · rcases pyLE_total a.target b.target with ht | ht
      · exact Or.inl (Or.inr ⟨h, Or.inr ⟨hs, ht⟩⟩)
      · exact Or.inr (Or.inr ⟨h.symm, Or.inr ⟨hs.symm, ht⟩⟩)
    · exact Or.inl (Or.inr ⟨h, Or.inl hs⟩)
  · exact Or.inr (Or.inl h)

instance : IsTrans ECand ecandLE := by
  constructor
  intro a b c hab hbc
  unfold ecandLE at hab hbc ⊢
  rcases hab with h1 | ⟨he1, h1⟩
  · rcases hbc with h2 | ⟨he2, h2⟩
    · exact Or.inl (Nat.lt_trans h1 h2)
    · exact Or.inl (he2 ▸ h1)
  · rcases hbc with h2 | ⟨he2, h2⟩
    · exact Or.inl (he1 ▸ h2)
    · refine Or.inr ⟨he1.trans he2, ?_⟩
      rcases h1 with hs1 | ⟨hse1, ht1⟩
      · rcases h2 with hs2 | ⟨hse2, ht2⟩
        · exact Or.inl (lt_trans hs2 hs1)
        · exact Or.inl (hse2 ▸ hs1)
      · rcases h2 with hs2 | ⟨hse2, ht2⟩
        · exact Or.inl (hse1 ▸ hs2)
        · exact Or.inr ⟨hse1.trans hse2, pyLE_trans ht1 ht2⟩

theorem ecandLT_of_le_ne {a b : ECand} (h : ecandLE a b) (hne : a.target ≠ b.target) :
    ecandLT a b := by
  unfold ecandLE at h
  unfold ecandLT
  rcases h with h | ⟨he, h⟩
  · exact Or.inl h
  · refine Or.inr ⟨he, ?_⟩
    rcases h with hs | ⟨hse, ht⟩
    · exact Or.inl hs
    · exact Or.inr ⟨hse, pyLT_of_pyLE_ne ht hne⟩

instance : IsTotal DrugEntry drugGE := by
  constructor
  intro a b
  unfold drugGE
  exact le_total (drugKey b) (drugKey a)

instance : IsTrans DrugEntry drugGE := by
  constructor
  intro a b c hab hbc
  unfold drugGE at hab hbc ⊢
  exact le_trans hbc hab

/-! ## Engine-level bridges -/

theorem candMap_target {G : Graph} {bs : List String} {n : String} {c : Candidate}
    (h : (n, c) ∈ candMapOf G bs) : c.target = n := by
  have halook := candMap_mem_iff_alook.mp h
  rw [candMap_alook] at halook
  cases hb : bestSeed G bs n with
  | none =>
    rw [hb] at halook
    exact Option.noConfusion halook
  | some p =>
    rw [hb] at halook
    have := Option.some.inj halook
    rw [← this]
    rfl

def runCandidates (o : RunOutcome) : List ECand :=
  match o.result with
  | .success r => r.candidates
  | _ => []

theorem engine_success_shape {biomarkers : List String} {csv : Except String Table}
    {net : NetResult} {r : ResponseData}
    (h : (drug_repurposing_engine biomarkers csv net).result = .success r) :
    ∃ t mapping,
      csv = .ok t ∧
      fetch_dgidb_drugs_via_graphql
          ((candMapOf (buildGraph t) (normBiomarkers biomarkers)).map Prod.fst) net =
        some mapping ∧
      r = assembleResponse (buildGraph t) (normBiomarkers biomarkers)
          (candMapOf (buildGraph t) (normBiomarkers biomarkers)) mapping := by
  unfold drug_repurposing_engine at h
  by_cases hbs : (normBiomarkers biomarkers).isEmpty
  · rw [if_pos hbs] at h
    exact absurd h (by simp)
  · rw [if_neg hbs] at h
    unfold finalizeTemp at h
    cases hb : engineBody (normBiomarkers biomarkers) csv net with
    | error e =>
      rw [hb] at h
      exact absurd h (by simp)
    | ok resp =>
      rw [hb] at h
      simp only [EngineResult.success.injEq] at h
      cases csv with
      | error e =>
        have hb2 : (Except.error e : Except String ResponseData) = .ok resp := hb
        exact Except.noConfusion hb2
      | ok t =>
        have hb2 :
            (if t.rows.isEmpty then (Except.error "PPI CSV file is empty" : Except String ResponseData)
             else if t.numCols < 2 then
               .error "PPI CSV must have at least two columns (source, target)"
             else
               match fetch_dgidb_drugs_via_graphql
                   ((candMapOf (buildGraph t) (normBiomarkers biomarkers)).map Prod.fst) net with
               | none => .error "KeyError"
               | some mapping =>
                 .ok (assembleResponse (buildGraph t) (normBiomarkers biomarkers)
                   (candMapOf (buildGraph t) (normBiomarkers biomarkers)) mapping)) = .ok resp := hb
        by_cases hrows : t.rows.isEmpty
        · rw [if_pos hrows] at hb2
          exact Except.noConfusion hb2
        · rw [if_neg hrows] at hb2
          by_cases hcols : t.numCols < 2
          · rw [if_pos hcols] at hb2
            exact Except.noConfusion hb2
          · rw [if_neg hcols] at hb2
            cases hf : fetch_dgidb_drugs_via_graphql
                ((candMapOf (buildGraph t) (normBiomarkers biomarkers)).map Prod.fst) net with
            | none =>
              rw [hf] at hb2
              exact Except.noConfusion hb2
            | some mapping =>
              rw [hf] at hb2
              have hresp := Except.ok.inj hb2
              exact ⟨t, mapping, rfl, hf, by rw [← h, ← hresp]⟩

theorem assembleResponse_candidates (G : Graph) (bs : List String)
    (cmap : List (String × Candidate)) (mapping : List (String × List DrugEntry)) :
    (assembleResponse G bs cmap mapping).candidates =
      List.insertionSort ecandLE (cmap.map (fun p => enrichCandidate mapping p.1 p.2)) := rfl

theorem enrichCandidate_target (mapping : List (String × List DrugEntry)) (g : String)
    (c : Candidate) : (enrichCandidate mapping g c).target = c.target := rfl

theorem enrichCandidate_empty_map (g : String) (c : Candidate) :
    (enrichCandidate [] g c).drug_list = [] ∧ (enrichCandidate [] g c).drug_count = 0 ∧
      (enrichCandidate [] g c).drug_name = none := by
  constructor
  · rfl
  · constructor
    · rfl
    · rfl

/-! ## Graph builder lemmas -/

theorem sameUPair_true_iff (u v : String) (e : String × String × Option ℚ) :
    sameUPair u v e = true ↔ (e.1 = u ∧ e.2.1 = v) ∨ (e.1 = v ∧ e.2.1 = u) := by
  simp [sameUPair]

theorem addNode_edges (G : Graph) (u : String) : (G.addNode u).edges = G.edges := by
  unfold Graph.addNode
  split
  · rfl
  · rfl

theorem ite_endpoint_fst (u v : String) (w : Option ℚ) (e : String × String × Option ℚ) :
    (if sameUPair u v e then (e.1, e.2.1, w.orElse (fun _ => e.2.2)) else e).1 = e.1 := by
  split
  · rfl
  · rfl

theorem ite_endpoint_snd (u v : String) (w : Option ℚ) (e : String × String × Option ℚ) :
    (if sameUPair u v e then (e.1, e.2.1, w.orElse (fun _ => e.2.2)) else e).2.1 = e.2.1 := by
  split
  · rfl
  · rfl

theorem sameUPair_of_endpoints (x y : String) (e e' : String × String × Option ℚ)
    (h1 : e'.1 = e.1) (h2 : e'.2.1 = e.2.1) : sameUPair x y e' = sameUPair x y e := by
  unfold sameUPair
  rw [h1, h2]

theorem addEdge_edges_pred {P : String → Prop} {G : Graph} {u v : String} {w : Option ℚ}
    (hG : ∀ e, e ∈ G.edges → P e.1 ∧ P e.2.1) (hu : P u) (hv : P v) :
    ∀ e, e ∈ (G.addEdge u v w).edges → P e.1 ∧ P e.2.1 := by
  intro e he
  simp only [Graph.addEdge] at he
  rw [addNode_edges, addNode_edges] at he
  by_cases hany : G.edges.any (sameUPair u v) = true
  · simp only [hany, if_pos] at he
    obtain ⟨e0, he0, heq⟩ := List.mem_map.mp he
    have h1 : e.1 = e0.1 := by rw [← heq]; exact ite_endpoint_fst u v w e0
    have h2 : e.2.1 = e0.2.1 := by rw [← heq]; exact ite_endpoint_snd u v w e0
    rw [h1, h2]
    exact hG e0 he0
  · simp only [hany, Bool.false_eq_true, if_neg, not_false_iff] at he
    rcases List.mem_append.mp he with h | h
    · exact hG e h
    · simp at h
      rw [h]
      exact ⟨hu, hv⟩

theorem rowKept_spec {r : Row} (h : rowKept r = true) :
    pyStrip r.src ≠ "" ∧ pyStrip r.src ≠ "nan" ∧ pyStrip r.tgt ≠ "" ∧ pyStrip r.tgt ≠ "nan" := by
  unfold rowKept at h
  simp only [Bool.not_eq_eq_eq_not, Bool.not_true, Bool.or_eq_false_iff, beq_eq_false_iff_ne]
    at h
  exact ⟨h.1.1.1, h.1.2, h.1.1.2, h.2⟩

theorem buildGraph_edges_pred (t : Table) :
    ∀ e, e ∈ (buildGraph t).edges →
      (e.1 ≠ "" ∧ e.1 ≠ "nan") ∧ (e.2.1 ≠ "" ∧ e.2.1 ≠ "nan") := by
  unfold buildGraph
  suffices h : ∀ (rows : List Row) (G0 : Graph),
      (∀ e, e ∈ G0.edges → (e.1 ≠ "" ∧ e.1 ≠ "nan") ∧ (e.2.1 ≠ "" ∧ e.2.1 ≠ "nan")) →
      ∀ e, e ∈ (rows.foldl
        (fun G r =>
          if rowKept r then G.addEdge (pyStrip r.src) (pyStrip r.tgt) (rowWeight t r) else G)
        G0).edges →
        (e.1 ≠ "" ∧ e.1 ≠ "nan") ∧ (e.2.1 ≠ "" ∧ e.2.1 ≠ "nan") by
    exact h t.rows Graph.empty (fun e he => absurd he (by simp [Graph.empty]))
  intro rows
  induction rows with
  | nil => intro G0 hG0; exact hG0
  | cons r rest ih =>
    intro G0 hG0
    simp only [List.foldl_cons]
    by_cases hk : rowKept r = true
    · rw [if_pos hk]
      refine ih _ ?_
      obtain ⟨h1, h2, h3, h4⟩ := rowKept_spec hk
      exact @addEdge_edges_pred (fun x => x ≠ "" ∧ x ≠ "nan") G0 (pyStrip r.src)
        (pyStrip r.tgt) (rowWeight t r) hG0 ⟨h1, h2⟩ ⟨h3, h4⟩
    · rw [if_neg hk]
      exact ih _ hG0

theorem addEdge_pairwise {G : Graph} {u v : String} {w : Option ℚ}
    (h : G.edges.Pairwise (fun e e' => ¬ sameUPair e.1 e.2.1 e' = true)) :
    (G.addEdge u v w).edges.Pairwise (fun e e' => ¬ sameUPair e.1 e.2.1 e' = true) := by
  simp only [Graph.addEdge]
  rw [addNode_edges, addNode_edges]
  by_cases hany : G.edges.any (sameUPair u v) = true
  · simp only [hany, if_pos]
    rw [List.pairwise_map]
    refine h.imp ?_
    intro a b hab
    intro hcon
    refine hab ?_
    have ha1 := ite_endpoint_fst u v w a
    have ha2 := ite_endpoint_snd u v w a
    rw [ha1, ha2] at hcon
    rw [← sameUPair_of_endpoints a.1 a.2.1 b _ (ite_endpoint_fst u v w b)
      (ite_endpoint_snd u v w b)]
    exact hcon
  · simp only [hany, Bool.false_eq_true, if_neg, not_false_iff]
    rw [List.pairwise_append]
    refine ⟨h, by simp, ?_⟩
    intro a ha b hb
    simp at hb
    rw [hb]
    intro hcon
    rw [sameUPair_true_iff] at hcon
    have hfa : ¬ sameUPair u v a = true := by
      intro hx
      exact hany (List.any_eq_true.mpr ⟨a, ha, hx⟩)
    refine hfa ?_
    rw [sameUPair_true_iff]
    rcases hcon with ⟨hc1, hc2⟩ | ⟨hc1, hc2⟩
    · exact Or.inl ⟨hc1.symm, hc2.symm⟩
    · exact Or.inr ⟨hc2.symm, hc1.symm⟩

theorem buildGraph_pairwise (t : Table) :
    (buildGraph t).edges.Pairwise (fun e e' => ¬ sameUPair e.1 e.2.1 e' = true) := by
  unfold buildGraph
  suffices h : ∀ (rows : List Row) (G0 : Graph),
      G0.edges.Pairwise (fun e e' => ¬ sameUPair e.1 e.2.1 e' = true) →
      ((rows.foldl
        (fun G r =>
          if rowKept r then G.addEdge (pyStrip r.src) (pyStrip r.tgt) (rowWeight t r) else G)
        G0).edges).Pairwise (fun e e' => ¬ sameUPair e.1 e.2.1 e' = true) by
    exact h t.rows Graph.empty (by simp [Graph.empty])
  intro rows
  induction rows with
  | nil => intro G0 hG0; exact hG0
  | cons r rest ih =>
    intro G0 hG0
    simp only [List.foldl_cons]
    by_cases hk : rowKept r = true
    · rw [if_pos hk]
      exact ih _ (addEdge_pairwise hG0)
    · rw [if_neg hk]
      exact ih _ hG0

theorem sameUPair_swap (u v : String) (e : String × String × Option ℚ) :
    sameUPair u v e = sameUPair v u e := Bool.or_comm _ _

def findEdge (G : Graph) (u v : String) : Option (String × String × Option ℚ) :=
  G.edges.find? (sameUPair u v)

def rowMatches (r : Row) (u v : String) : Prop :=
  (pyStrip r.src = u ∧ pyStrip r.tgt = v) ∨ (pyStrip r.src = v ∧ pyStrip r.tgt = u)

instance (r : Row) (u v : String) : Decidable (rowMatches r u v) := by
  unfold rowMatches
  infer_instance

/-- The effective weights of the rows mapping to the unordered pair
\x7bu, v\x7d, in row order. -/
def effWeights (t : Table) (u v : String) : List ℚ :=
  t.rows.filterMap
    (fun r => if rowKept r = true ∧ rowMatches r u v then some (r.w.getD 1) else none)

theorem addEdge_edges (G : Graph) (u v : String) (w : Option ℚ) :
    (G.addEdge u v w).edges =
      if G.edges.any (sameUPair u v) then
        G.edges.map
          (fun e => if sameUPair u v e then (e.1, e.2.1, w.orElse (fun _ => e.2.2)) else e)
      else G.edges ++ [(u, v, w)] := by
  simp only [Graph.addEdge]
  rw [addNode_edges, addNode_edges]
  split
  · rfl
  · rfl

theorem uPair_eq_of_both {u v σ τ : String} {e : String × String × Option ℚ}
    (h1 : sameUPair u v e = true) (h2 : sameUPair σ τ e = true) :
    (σ = u ∧ τ = v) ∨ (σ = v ∧ τ = u) := by
  rw [sameUPair_true_iff] at h1 h2
  rcases h1 with ⟨ha, hb⟩ | ⟨ha, hb⟩
  · rcases h2 with ⟨hc, hd⟩ | ⟨hc, hd⟩
    · exact Or.inl ⟨hc.symm.trans ha, hd.symm.trans hb⟩
    · exact Or.inr ⟨hd.symm.trans hb, hc.symm.trans ha⟩
  · rcases h2 with ⟨hc, hd⟩ | ⟨hc, hd⟩
    · exact Or.inr ⟨hc.symm.trans ha, hd.symm.trans hb⟩
    · exact Or.inl ⟨hd.symm.trans hb, hc.symm.trans ha⟩

theorem findEdge_addEdge_same (G : Graph) (σ τ u v : String) (x : ℚ)
    (hm : (σ = u ∧ τ = v) ∨ (σ = v ∧ τ = u)) :
    ((G.addEdge σ τ (some x)).edges.find? (sameUPair u v)).map (fun e => e.2.2) =
      some (some x) := by
  have hfun : sameUPair σ τ = sameUPair u v := by
    rcases hm with ⟨h1, h2⟩ | ⟨h1, h2⟩
    · rw [h1, h2]
    · rw [h1, h2]
      funext e
      exact sameUPair_swap v u e
  rw [addEdge_edges, hfun]
  by_cases hany : G.edges.any (sameUPair u v) = true
  · rw [if_pos hany]
    rw [List.find?_map]
    have hcomp : (sameUPair u v ∘ fun e =>
        if sameUPair u v e = true then (e.1, e.2.1, (some x).orElse fun _ => e.2.2) else e) =
        sameUPair u v := by
      funext e
      exact sameUPair_of_endpoints u v e _ (ite_endpoint_fst u v (some x) e)
        (ite_endpoint_snd u v (some x) e)
    rw [hcomp]
    cases hf : G.edges.find? (sameUPair u v) with
    | none =>
      rw [List.find?_eq_none] at hf
      obtain ⟨e0, he0, hp⟩ := List.any_eq_true.mp hany
      exact absurd hp (hf e0 he0)
    | some e0 =>
      have hp := List.find?_some hf
      simp [hp, Option.orElse]
  · rw [if_neg hany]
    rw [List.find?_append]
    have hnone : G.edges.find? (sameUPair u v) = none := by
      rw [List.find?_eq_none]
      intro e he hp
      exact hany (List.any_eq_true.mpr ⟨e, he, hp⟩)
    rw [hnone]
    have hsp : sameUPair u v (σ, τ, some x) = true := by
      rw [sameUPair_true_iff]
      exact hm
    simp [List.find?, hsp]

theorem findEdge_addEdge_other (G : Graph) (σ τ u v : String) (w : Option ℚ)
    (hm : ¬ ((σ = u ∧ τ = v) ∨ (σ = v ∧ τ = u))) :
    ((G.addEdge σ τ w).edges.find? (sameUPair u v)).map (fun e => e.2.2) =
      (G.edges.find? (sameUPair u v)).map (fun e => e.2.2) := by
  rw [addEdge_edges]
  by_cases hany : G.edges.any (sameUPair σ τ) = true
  · rw [if_pos hany]
    rw [List.find?_map]
    have hcomp : (sameUPair u v ∘ fun e =>
        if sameUPair σ τ e = true then (e.1, e.2.1, w.orElse fun _ => e.2.2) else e) =
        sameUPair u v := by
      funext e
      exact sameUPair_of_endpoints u v e _ (ite_endpoint_fst σ τ w e)
        (ite_endpoint_snd σ τ w e)
    rw [hcomp]
    cases hf : G.edges.find? (sameUPair u v) with
    | none => rfl
    | some e0 =>
      have hp := List.find?_some hf
      have hnot : sameUPair σ τ e0 = false := by
        cases hst : sameUPair σ τ e0 with
        | false => rfl
        | true => exact absurd (uPair_eq_of_both hp hst) hm
      simp [hnot]
  · rw [if_neg hany]
    rw [List.find?_append]
    cases hf : G.edges.find? (sameUPair u v) with
    | none =>
      have hsp : sameUPair u v (σ, τ, w) = false := by
        cases hst : sameUPair u v (σ, τ, w) with
        | false => rfl
        | true =>
          exfalso
          rw [sameUPair_true_iff] at hst
          refine hm ?_
          rcases hst with ⟨h1, h2⟩ | ⟨h1, h2⟩
          · exact Or.inl ⟨h1, h2⟩
          · exact Or.inr ⟨h1, h2⟩
      simp [List.find?, hsp]
    | some e0 => simp

theorem rowMatches_iff (r : Row) (u v : String) :
    rowMatches r u v ↔
      ((pyStrip r.src = u ∧ pyStrip r.tgt = v) ∨ (pyStrip r.src = v ∧ pyStrip r.tgt = u)) :=
  Iff.rfl

theorem buildW_last (u v : String) :
    ∀ rows : List Row,
      (((rows.foldl
          (fun G r =>
            if rowKept r then G.addEdge (pyStrip r.src) (pyStrip r.tgt) (some (r.w.getD 1))
            else G)
          Graph.empty).edges.find? (sameUPair u v)).map (fun e => e.2.2)) =
        ((rows.filterMap
          (fun r => if rowKept r = true ∧ rowMatches r u v then some (r.w.getD 1) else none)
          ).getLast?).map some := by
  intro rows
  induction rows using List.reverseRecOn with
  | nil => rfl
  | append_singleton l r ih =>
    rw [List.foldl_append, List.filterMap_append]
    simp only [List.foldl_cons, List.foldl_nil, List.filterMap_cons, List.filterMap_nil]
    by_cases hk : rowKept r = true
    · by_cases hm : rowMatches r u v
      · rw [if_pos hk]
        rw [findEdge_addEdge_same _ _ _ _ _ (r.w.getD 1) hm]
        rw [if_pos ⟨hk, hm⟩]
        rw [List.getLast?_concat]
        rfl
      · rw [if_pos hk]
        rw [findEdge_addEdge_other _ _ _ _ _ _ hm]
        rw [if_neg (fun hc => hm hc.2)]
        rw [List.append_nil]
        exact ih
    · rw [if_neg hk]
      rw [if_neg (fun hc => hk hc.1)]
      rw [List.append_nil]
      exact ih

theorem buildGraph_eq_weighted (t : Table) (h : 2 < t.numCols) :
    buildGraph t =
      t.rows.foldl
        (fun G r =>
          if rowKept r then G.addEdge (pyStrip r.src) (pyStrip r.tgt) (some (r.w.getD 1))
          else G)
        Graph.empty := by
  unfold buildGraph
  refine List.foldl_ext _ _ Graph.empty ?_
  intro G r _
  unfold rowWeight
  rw [if_pos h]

theorem buildGraph_last_weight (t : Table) (u v : String) (h : 2 < t.numCols) :
    (((buildGraph t).edges.find? (sameUPair u v)).map (fun e => e.2.2)) =
      ((effWeights t u v).getLast?).map some := by
  rw [buildGraph_eq_weighted t h]
  exact buildW_last u v t.rows

/-! ## Engine behaviour under enrichment failure and malformed input -/

theorem engineBody_ok_eq (bs : List String) (t : Table) (net : NetResult) :
    engineBody bs (.ok t) net =
      (if t.rows.isEmpty then .error "PPI CSV file is empty"
       else if t.numCols < 2 then
         .error "PPI CSV must have at least two columns (source, target)"
       else
         match fetch_dgidb_drugs_via_graphql
             ((candMapOf (buildGraph t) bs).map Prod.fst) net with
         | none => .error "KeyError"
         | some mapping =>
           .ok (assembleResponse (buildGraph t) bs (candMapOf (buildGraph t) bs) mapping)) := rfl

theorem engineBody_fail_eq (bs : List String) (csv : Except String Table) (net : NetResult)
    (h : isFailNet net = true) :
    engineBody bs csv net = engineBody bs csv (.ok 200 (.json false [])) := by
  unfold engineBody
  cases csv with
  | error e => rfl
  | ok t =>
    by_cases hrows : t.rows.isEmpty
    · simp [hrows]
    · by_cases hcols : t.numCols < 2
      · simp [hrows, hcols]
      · simp [hrows, hcols, fetch_fail_empty _ _ h, fetch_ok_empty_nodes]

theorem engine_fail_eq (biomarkers : List String) (csv : Except String Table)
    (net : NetResult) (h : isFailNet net = true) :
    drug_repurposing_engine biomarkers csv net =
      drug_repurposing_engine biomarkers csv (.ok 200 (.json false [])) := by
  unfold drug_repurposing_engine
  by_cases hbs : (normBiomarkers biomarkers).isEmpty
  · rw [if_pos hbs, if_pos hbs]
  · rw [if_neg hbs, if_neg hbs, engineBody_fail_eq _ _ _ h]

theorem engine_fail_success_empty (biomarkers : List String) (csv : Except String Table)
    (net : NetResult) (h : isFailNet net = true) (r : ResponseData)
    (hr : (drug_repurposing_engine biomarkers csv net).result = .success r) :
    ∀ c, c ∈ r.candidates → c.drug_list = [] ∧ c.drug_count = 0 ∧ c.drug_name = none := by
  obtain ⟨t, mapping, hcsv, hfetch, hresp⟩ := engine_success_shape hr
  rw [fetch_fail_empty _ _ h] at hfetch
  have hmap : mapping = [] := (Option.some.inj hfetch).symm
  subst hmap
  intro c hc
  rw [hresp, assembleResponse_candidates] at hc
  rw [(List.perm_insertionSort _ _).mem_iff] at hc
  obtain ⟨p, _, hpe⟩ := List.mem_map.mp hc
  rw [← hpe]
  exact enrichCandidate_empty_map p.1 p.2

def EngineResult.isError : EngineResult → Bool
  | .serverError _ => true
  | _ => false

def EngineResult.isSuccess : EngineResult → Bool
  | .success _ => true
  | _ => false

theorem buildGraph_skip (t : Table) (h : ∀ r, r ∈ t.rows → rowKept r = false) :
    buildGraph t = Graph.empty := by
  unfold buildGraph
  have : ∀ (rows : List Row), (∀ r, r ∈ rows → rowKept r = false) →
      rows.foldl
        (fun G r =>
          if rowKept r then G.addEdge (pyStrip r.src) (pyStrip r.tgt) (rowWeight t r) else G)
        Graph.empty = Graph.empty := by
    intro rows
    induction rows with
    | nil => intro _; rfl
    | cons r rest ih =>
      intro hall
      simp only [List.foldl_cons]
      rw [if_neg (by rw [hall r (List.mem_cons_self r rest)]; simp)]
      exact ih (fun r' hr' => hall r' (List.mem_cons_of_mem _ hr'))
  exact this t.rows h

theorem candMapOf_empty_graph (bs : List String) : candMapOf Graph.empty bs = [] := by
  unfold candMapOf
  have hstep : ∀ (m : List (String × Candidate)) (s : String),
      processSeed Graph.empty m s = m := by
    intro m s
    unfold processSeed
    rw [if_neg (by simp [Graph.empty])]
  have : ∀ (bs : List String) (m : List (String × Candidate)),
      bs.foldl (processSeed Graph.empty) m = m := by
    intro bs
    induction bs with
    | nil => intro m; rfl
    | cons b rest ih =>
      intro m
      simp only [List.foldl_cons, hstep]
      exact ih m
  exact this bs []

theorem subNodesOf_empty_graph (bs : List String) : subNodesOf Graph.empty bs = [] := by
  unfold subNodesOf
  have : ∀ (bs : List String) (acc : List String),
      bs.foldl
        (fun acc s =>
          if s ∈ Graph.empty.nodes then
            ((bfsFrom Graph.empty s maxHops).map Prod.fst).foldl insertNew (insertNew acc s)
          else acc)
        acc = acc := by
    intro bs
    induction bs with
    | nil => intro acc; rfl
    | cons b rest ih =>
      intro acc
      simp only [List.foldl_cons]
      rw [if_neg (by simp [Graph.empty])]
      exact ih acc
  exact this bs []

theorem engine_all_skipped (biomarkers : List String) (t : Table) (net : NetResult)
    (hbs : ¬ (normBiomarkers biomarkers).isEmpty = true)
    (hrows : ¬ t.rows.isEmpty = true) (hcols : ¬ t.numCols < 2)
    (hskip : ∀ r, r ∈ t.rows → rowKept r = false) :
    (drug_repurposing_engine biomarkers (.ok t) net).result =
      .success
        { biomarkers := normBiomarkers biomarkers
          num_nodes := 0
          num_edges := 0
          sub_nodes := []
          sub_edges := []
          candidates := [] } := by
  unfold drug_repurposing_engine
  rw [if_neg hbs]
  unfold finalizeTemp
  have hbody : engineBody (normBiomarkers biomarkers) (.ok t) net =
      .ok { biomarkers := normBiomarkers biomarkers, num_nodes := 0, num_edges := 0,
            sub_nodes := [], sub_edges := [], candidates := [] } := by
    rw [engineBody_ok_eq]
    rw [if_neg hrows, if_neg hcols]
    rw [buildGraph_skip t hskip, candMapOf_empty_graph]
    have hfetch : fetch_dgidb_drugs_via_graphql
        (([] : List (String × Candidate)).map Prod.fst) net = some [] := rfl
    rw [hfetch]
    unfold assembleResponse
    rw [subNodesOf_empty_graph]
    rfl
  rw [hbody]

/-! ## Bounds, score form, and shortest-path meaning of every candidate -/

theorem candMap_mem_spec {G : Graph} {bs : List String} {n : String} {c : Candidate}
    (h : (n, c) ∈ candMapOf G bs) :
    c.target = n ∧ c.nearest_biomarker ∈ bs ∧ n ≠ c.nearest_biomarker ∧
      1 ≤ c.hops_from_biomarker ∧ c.hops_from_biomarker ≤ maxHops ∧
      c.score = qscore c.hops_from_biomarker ∧
      IsHopDist G c.nearest_biomarker n c.hops_from_biomarker := by
  have halook := candMap_mem_iff_alook.mp h
  rw [candMap_alook] at halook
  cases hb : bestSeed G bs n with
  | none =>
    rw [hb] at halook
    exact Option.noConfusion halook
  | some p =>
    rw [hb] at halook
    obtain ⟨s0, d0⟩ := p
    have hc := Option.some.inj halook
    rcases bestFold_sound G n bs none (s0, d0) hb with habs | ⟨hmem, hdist⟩
    · exact Option.noConfusion habs
    · obtain ⟨hnodes, hne, h1, h2, hhop⟩ := candDist_spec hdist
      rw [← hc]
      exact ⟨rfl, hmem, hne, h1, h2, rfl, hhop⟩

/-! ## Concrete fixtures for witnesses and counterexamples -/

def tAB : Table := { numCols := 2, rows := [{ src := "A", tgt := "B", w := none }] }

def tSelf : Table := { numCols := 3, rows := [{ src := "A", tgt := "A", w := some 5 }] }

def tSkip : Table := { numCols := 2, rows := [{ src := "nan", tgt := "nan", w := none }] }

def tW : Table :=
  { numCols := 3
    rows := [{ src := "A", tgt := "B", w := some 1 }, { src := "B", tgt := "A", w := some 7 }] }

def int1 : Interaction :=
  { drug := some { name := some "d", conceptId := some "c" }
    interactionScore := some 1
    interactionTypes := []
    publications := []
    sources := [] }

def n1 : GeneNode := { interactions := [int1] }

def intNeg : Interaction :=
  { drug := some { name := some "d1", conceptId := none }
    interactionScore := some (-1)
    interactionTypes := []
    publications := []
    sources := [] }

def intNull : Interaction :=
  { drug := some { name := some "d2", conceptId := none }
    interactionScore := none
    interactionTypes := []
    publications := []
    sources := [] }

def nC8 : GeneNode := { interactions := [intNeg, intNull] }

def candC8 : ECand :=
  { target := "B"
    nearest_biomarker := "A"
    hops_from_biomarker := 1
    score := qscore 1
    evidence := "Nearest biomarker: A, shortest path length: 1"
    drug_name := some "d2, d1"
    drug_list := ["d2", "d1"]
    drug_count := 2
    drug_details := [mkEntry intNeg "d1", mkEntry intNull "d2"] }

def respC8 : ResponseData :=
  { biomarkers := ["A"]
    num_nodes := 2
    num_edges := 1
    sub_nodes := [{ id := "A", label := "A", is_biomarker := true, degree := 1 },
      { id := "B", label := "B", is_biomarker := false, degree := 1 }]
    sub_edges := [{ source := "A", target := "B", weight := 1 }]
    candidates := [candC8] }

/-! ## Claims -/

/-- C1 counterexample: with the edge A-B and the biomarker list
["A", "B"], seed "B" is one hop from seed "A", so the key "A" (a biomarker)
appears in the candidate map the engine builds — the claim that no seed ever
appears in the candidate list is false. -/
theorem c1_counterexample :
    "A" ∈ (runCandidates (drug_repurposing_engine ["A", "B"] (.ok tAB) .netError)).map
        (fun c => c.target) ∧
      "A" ∈ ["A", "B"] := by
  decide

/-- C1 (amended): a candidate record's key never equals the seed that
discovered it — each record's nearest_biomarker is a member of the biomarker
list and differs from the record's key — but a seed lying within the hop
limit of a different seed does appear as a candidate key. -/
theorem c1_amended :
    ∀ (G : Graph) (bs : List String) (n : String) (c : Candidate),
      (n, c) ∈ candMapOf G bs →
        c.target = n ∧ c.nearest_biomarker ∈ bs ∧ n ≠ c.nearest_biomarker := by
  intro G bs n c h
  obtain ⟨h1, h2, h3, _⟩ := candMap_mem_spec h
  exact ⟨h1, h2, h3⟩

theorem c1_witness :
    (mkCand "B" "A" 1).target = "B" ∧ (mkCand "B" "A" 1).nearest_biomarker ∈ ["A"] ∧
      "B" ≠ (mkCand "B" "A" 1).nearest_biomarker :=
  c1_amended (buildGraph tAB) ["A"] "B" (mkCand "B" "A" 1) (by decide)

/-- C2 counterexample: a row whose source equals its target is not skipped,
so the built graph contains a self-loop edge — the claim that the graph
never contains self-loop edges is false. -/
theorem c2_counterexample : (buildGraph tSelf).edges = [("A", "A", some 5)] := by
  decide

/-- C2 (amended): the built graph has no blank or "nan" identifier
endpoints, each unordered node pair carries at most one edge, and with a
weight column present the stored weight of a pair is the effective weight of
the last row mapping to that pair; however a row with equal source and
target does produce a self-loop edge. -/
theorem c2_amended :
    ∀ (t : Table) (u v : String),
      (∀ e, e ∈ (buildGraph t).edges →
        (e.1 ≠ "" ∧ e.1 ≠ "nan") ∧ (e.2.1 ≠ "" ∧ e.2.1 ≠ "nan")) ∧
      (buildGraph t).edges.Pairwise (fun e e' => ¬ sameUPair e.1 e.2.1 e' = true) ∧
      (2 < t.numCols →
        (((buildGraph t).edges.find? (sameUPair u v)).map (fun e => e.2.2)) =
          ((effWeights t u v).getLast?).map some) := by
  intro t u v
  exact ⟨buildGraph_edges_pred t, buildGraph_pairwise t,
    fun h => buildGraph_last_weight t u v h⟩

theorem c2_witness :
    (((buildGraph tW).edges.find? (sameUPair "A" "B")).map (fun e => e.2.2)) =
        ((effWeights tW "A" "B").getLast?).map some ∧
      ((effWeights tW "A" "B").getLast?).map some = some (some 7) :=
  ⟨(c2_amended tW "A" "B").2.2 (by decide), by decide⟩

/-- C3 (confirmed): on network failure, non-200 status, non-JSON body, or a
GraphQL error payload, the enrichment client returns the empty map; the
whole request behaves exactly as with a successful-but-empty enrichment
response (so the candidate ranking is unchanged), and every candidate of a
successful response then has empty drug_list, drug_count 0, and null
drug_name. -/
theorem c3_enrichment_failure :
    ∀ (genes biomarkers : List String) (csv : Except String Table) (net : NetResult),
      isFailNet net = true →
      fetch_dgidb_drugs_via_graphql genes net = some [] ∧
      drug_repurposing_engine biomarkers csv net =
        drug_repurposing_engine biomarkers csv (.ok 200 (.json false [])) ∧
      (∀ r, (drug_repurposing_engine biomarkers csv net).result = .success r →
        ∀ c, c ∈ r.candidates →
          c.drug_list = [] ∧ c.drug_count = 0 ∧ c.drug_name = none) := by
  intro genes biomarkers csv net h
  exact ⟨fetch_fail_empty genes net h, engine_fail_eq biomarkers csv net h,
    fun r hr => engine_fail_success_empty biomarkers csv net h r hr⟩

theorem c3_witness :
    fetch_dgidb_drugs_via_graphql ["X"] .netError = some [] ∧
      drug_repurposing_engine ["A"] (.ok tAB) .netError =
        drug_repurposing_engine ["A"] (.ok tAB) (.ok 200 (.json false [])) :=
  ⟨(c3_enrichment_failure ["X"] ["A"] (.ok tAB) .netError (by decide)).1,
    (c3_enrichment_failure ["X"] ["A"] (.ok tAB) .netError (by decide)).2.1⟩

/-- C4 counterexample: a table whose rows are all skipped for invalid
identifiers ("nan") yields an empty graph after parsing, yet the request
succeeds instead of failing with a malformed-input error — the claim that
such input fails is false. -/
theorem c4_counterexample :
    (drug_repurposing_engine ["A"] (.ok tSkip) .netError).result.isSuccess = true ∧
      tSkip.rows ≠ [] := by
  decide

/-- C4 (amended): with a nonempty biomarker list (and enrichment in any
failure mode, so that no later step can raise), the request fails exactly
when the parsed table has no rows or fewer than two columns; when every row
is skipped for blank/invalid identifiers the request instead succeeds with
an empty (0-node) graph and an empty candidate list. -/
theorem c4_amended :
    ∀ (biomarkers : List String) (t : Table) (net : NetResult),
      ¬ (normBiomarkers biomarkers).isEmpty = true →
      (isFailNet net = true →
        ((drug_repurposing_engine biomarkers (.ok t) net).result.isError = true ↔
          (t.rows.isEmpty = true ∨ t.numCols < 2))) ∧
      ((∀ r, r ∈ t.rows → rowKept r = false) →
        ¬ t.rows.isEmpty = true → ¬ t.numCols < 2 →
        (drug_repurposing_engine biomarkers (.ok t) net).result =
          .success
            { biomarkers := normBiomarkers biomarkers
              num_nodes := 0
              num_edges := 0
              sub_nodes := []
              sub_edges := []
              candidates := [] }) := by
  intro biomarkers t net hbs
  constructor
  · intro hfail
    unfold drug_repurposing_engine
    rw [if_neg hbs]
    unfold finalizeTemp
    rw [engineBody_ok_eq]
    by_cases hrows : t.rows.isEmpty
    · rw [if_pos hrows]
      simp [EngineResult.isError, hrows]
    · rw [if_neg hrows]
      by_cases hcols : t.numCols < 2
      · rw [if_pos hcols]
        simp [EngineResult.isError, hcols]
      · rw [if_neg hcols]
        rw [fetch_fail_empty _ _ hfail]
        simp [EngineResult.isError, hrows, hcols]
  · intro hskip hrows hcols
    exact engine_all_skipped biomarkers t net hbs hrows hcols hskip

theorem c4_witness :
    (drug_repurposing_engine ["A"] (.ok tSkip) .netError).result =
      .success
        { biomarkers := normBiomarkers ["A"]
          num_nodes := 0
          num_edges := 0
          sub_nodes := []
          sub_edges := []
          candidates := [] } :=
  (c4_amended ["A"] tSkip .netError (by decide)).2 (by decide) (by decide) (by decide)

/-- C5 (confirmed): the candidate list of every response is sorted by
ascending hop distance, then descending score, then lexically ascending
target; since targets are unique map keys the comparison between any two
listed candidates is strict (pairwise strict three-key order). -/
theorem c5_candidate_order :
    ∀ (biomarkers : List String) (csv : Except String Table) (net : NetResult),
      List.Sorted ecandLE (runCandidates (drug_repurposing_engine biomarkers csv net)) ∧
      List.Pairwise ecandLT (runCandidates (drug_repurposing_engine biomarkers csv net)) := by
  intro biomarkers csv net
  cases hres : (drug_repurposing_engine biomarkers csv net).result with
  | badRequest m =>
    unfold runCandidates
    rw [hres]
    exact ⟨List.sorted_nil, List.Pairwise.nil⟩
  | serverError m =>
    unfold runCandidates
    rw [hres]
    exact ⟨List.sorted_nil, List.Pairwise.nil⟩
  | success r =>
    have hcand : runCandidates (drug_repurposing_engine biomarkers csv net) = r.candidates := by
      unfold runCandidates
      rw [hres]
    obtain ⟨t, mapping, hcsv, hfetch, hresp⟩ := engine_success_shape hres
    rw [hcand, hresp, assembleResponse_candidates]
    refine ⟨List.sorted_insertionSort _ _, ?_⟩
    have hmapeq :
        ((candMapOf (buildGraph t) (normBiomarkers biomarkers)).map
          (fun p => enrichCandidate mapping p.1 p.2)).map (fun c => c.target) =
          (candMapOf (buildGraph t) (normBiomarkers biomarkers)).map Prod.fst := by
      rw [List.map_map]
      refine List.map_congr_left ?_
      intro p hp
      show (enrichCandidate mapping p.1 p.2).target = p.1
      rw [enrichCandidate_target]
      exact candMap_target hp
    have hnd :
        (((candMapOf (buildGraph t) (normBiomarkers biomarkers)).map
          (fun p => enrichCandidate mapping p.1 p.2)).map (fun c => c.target)).Nodup := by
      rw [hmapeq]
      exact candMap_keys_nodup _ _
    have hpw :
        ((candMapOf (buildGraph t) (normBiomarkers biomarkers)).map
          (fun p => enrichCandidate mapping p.1 p.2)).Pairwise
          (fun a b => a.target ≠ b.target) :=
      List.pairwise_map.mp hnd
    have hsorted := List.sorted_insertionSort ecandLE
      ((candMapOf (buildGraph t) (normBiomarkers biomarkers)).map
        (fun p => enrichCandidate mapping p.1 p.2))
    have hperm := List.perm_insertionSort ecandLE
      ((candMapOf (buildGraph t) (normBiomarkers biomarkers)).map
        (fun p => enrichCandidate mapping p.1 p.2))
    have hpw2 := (hperm.pairwise_iff
      (fun h => (Ne.symm h : _ ≠ _))).mpr hpw
    exact (hsorted.and hpw2).imp (fun h => ecandLT_of_le_ne h.1 h.2)

/-- C6 (confirmed): every candidate record has an integer hop distance d
with 1 ≤ d ≤ max_hops = 2, its score equals 1/(d + 1e-6) and is strictly
decreasing in d, and d is the unweighted shortest-path hop count from the
record's nearest biomarker — reweighting every edge leaves the candidate
map unchanged. -/
theorem c6_hops_and_score :
    (∀ (G : Graph) (bs : List String) (n : String) (c : Candidate),
      (n, c) ∈ candMapOf G bs →
        1 ≤ c.hops_from_biomarker ∧ c.hops_from_biomarker ≤ maxHops ∧
        c.score = 1 / ((c.hops_from_biomarker : ℚ) + 1 / 1000000) ∧
        IsHopDist G c.nearest_biomarker n c.hops_from_biomarker) ∧
    (∀ (G : Graph) (f : Option ℚ → Option ℚ) (bs : List String),
      candMapOf (G.mapWeights f) bs = candMapOf G bs) ∧
    (∀ d1 d2 : ℕ, d1 < d2 → qscore d2 < qscore d1) ∧ maxHops = 2 := by
  refine ⟨?_, candMapOf_mapWeights, fun d1 d2 h => qscore_lt_iff.mpr h, rfl⟩
  intro G bs n c h
  obtain ⟨_, _, _, h1, h2, hsc, hhop⟩ := candMap_mem_spec h
  exact ⟨h1, h2, by rw [hsc, qscore_spec], hhop⟩

theorem c6_witness :
    1 ≤ (mkCand "B" "A" 1).hops_from_biomarker ∧
      (mkCand "B" "A" 1).hops_from_biomarker ≤ maxHops ∧
      (mkCand "B" "A" 1).score = 1 / (((mkCand "B" "A" 1).hops_from_biomarker : ℚ) + 1 / 1000000) ∧
      IsHopDist (buildGraph tAB) (mkCand "B" "A" 1).nearest_biomarker "B"
        (mkCand "B" "A" 1).hops_from_biomarker :=
  c6_hops_and_score.1 (buildGraph tAB) ["A"] "B" (mkCand "B" "A" 1) (by decide)

/-- C7 (confirmed): the candidate map holds an entry for n exactly when some
listed seed reaches n within the cutoff; the retained record is the one of
minimal hop distance (equivalently maximal score), and among seeds attaining
it the first in biomarker-list order — so the candidate-to-seed mapping is a
function of the graph and the seed order alone. -/
theorem c7_merge_rule :
    ∀ (G : Graph) (bs : List String) (n : String),
      ((alook (candMapOf G bs) n).isSome = true ↔
        ∃ s, s ∈ bs ∧ (candDist G s n).isSome = true) ∧
      (∀ c, alook (candMapOf G bs) n = some c →
        candDist G c.nearest_biomarker n = some c.hops_from_biomarker ∧
        c = mkCand n c.nearest_biomarker c.hops_from_biomarker ∧
        (∀ s d, s ∈ bs → candDist G s n = some d → c.hops_from_biomarker ≤ d) ∧
        (∃ l1 l2, bs = l1 ++ c.nearest_biomarker :: l2 ∧
          ∀ s' d', s' ∈ l1 → candDist G s' n = some d' →
            c.hops_from_biomarker < d')) := by
  intro G bs n
  constructor
  · rw [candMap_alook]
    constructor
    · intro h
      cases hb : bestSeed G bs n with
      | none => rw [hb] at h; exact absurd h (by simp)
      | some p =>
        rcases bestFold_sound G n bs none p hb with habs | ⟨hmem, hdist⟩
        · exact Option.noConfusion habs
        · exact ⟨p.1, hmem, by rw [hdist]; rfl⟩
    · rintro ⟨s, hs, hd⟩
      cases hb : bestSeed G bs n with
      | some p => rfl
      | none =>
        have := (bestFold_none_iff G n bs none).mp hb
        rw [this.2 s hs] at hd
        exact absurd hd (by simp)
  · intro c halook
    rw [candMap_alook] at halook
    cases hb : bestSeed G bs n with
    | none =>
      rw [hb] at halook
      exact Option.noConfusion halook
    | some p =>
      rw [hb] at halook
      obtain ⟨s0, d0⟩ := p
      have hc := Option.some.inj halook
      rcases bestFold_sound G n bs none (s0, d0) hb with habs | ⟨hmem, hdist⟩
      · exact Option.noConfusion habs
      · obtain ⟨hmin, _⟩ := bestFold_min G n bs none (s0, d0) hb
        rcases bestFold_first G n bs none (s0, d0) hb with habs | ⟨l1, l2, heq, _, _, hl1⟩
        · exact Option.noConfusion habs
        · rw [← hc]
          refine ⟨hdist, rfl, ?_, ⟨l1, l2, heq, ?_⟩⟩
          · intro s d hs hd
            exact hmin s d hs hd
          · intro s' d' hs' hd'
            exact hl1 s' d' hs' hd'

theorem c7_witness :
    candDist (buildGraph tAB) (mkCand "B" "A" 1).nearest_biomarker "B" =
        some (mkCand "B" "A" 1).hops_from_biomarker ∧
      mkCand "B" "A" 1 =
        mkCand "B" (mkCand "B" "A" 1).nearest_biomarker (mkCand "B" "A" 1).hops_from_biomarker ∧
      (∀ s d, s ∈ ["A"] → candDist (buildGraph tAB) s "B" = some d →
        (mkCand "B" "A" 1).hops_from_biomarker ≤ d) ∧
      (∃ l1 l2, ["A"] = l1 ++ (mkCand "B" "A" 1).nearest_biomarker :: l2 ∧
        ∀ s' d', s' ∈ l1 → candDist (buildGraph tAB) s' "B" = some d' →
          (mkCand "B" "A" 1).hops_from_biomarker < d') :=
  (c7_merge_rule (buildGraph tAB) ["A"] "B").2 (mkCand "B" "A" 1) (by decide)

/-- C8 counterexample: with one interaction of score -1 (drug d1) and one of
null score (drug d2), the compact summary lists d2 before d1: the null score
coalesces to 0 and sorts before the negative score, so null scores do not
sort last as claimed. -/
theorem c8_counterexample :
    (runCandidates (drug_repurposing_engine ["A"] (.ok tAB)
        (.ok 200 (.json false [nC8])))).map (fun c => c.drug_list) = [["d2", "d1"]] ∧
      (runCandidates (drug_repurposing_engine ["A"] (.ok tAB)
        (.ok 200 (.json false [nC8])))).map
          (fun c => c.drug_details.map (fun d => d.score)) = [[some (-1), none]] := by
  decide

/-- C8 (amended): each candidate's compact summary comes from its full
interaction list stably sorted by descending coalesced score (a null score
counts as 0, hence sorts below positive but above negative scores),
truncated to the top 3; drug_count is the summary length (≤ 3) and
drug_details retains the attributed list unsorted. -/
theorem c8_amended :
    ∀ (biomarkers : List String) (csv : Except String Table) (net : NetResult)
      (r : ResponseData),
      (drug_repurposing_engine biomarkers csv net).result = .success r →
      ∀ c, c ∈ r.candidates →
        c.drug_list =
          ((List.insertionSort drugGE c.drug_details).take MAX_DRUGS_PER_TARGET).map
            (fun d => d.drug_name) ∧
        c.drug_count = c.drug_list.length ∧
        c.drug_list.length ≤ MAX_DRUGS_PER_TARGET ∧
        (List.insertionSort drugGE c.drug_details).Pairwise drugGE ∧
        List.Perm (List.insertionSort drugGE c.drug_details) c.drug_details ∧
        c.drug_name =
          (if c.drug_list.isEmpty then none
           else some (String.intercalate ", " c.drug_list)) := by
  intro biomarkers csv net r hr c hc
  obtain ⟨t, mapping, hcsv, hfetch, hresp⟩ := engine_success_shape hr
  rw [hresp, assembleResponse_candidates] at hc
  rw [(List.perm_insertionSort _ _).mem_iff] at hc
  obtain ⟨p, hp, hpe⟩ := List.mem_map.mp hc
  rw [← hpe]
  refine ⟨rfl, rfl, ?_, List.sorted_insertionSort _ _, List.perm_insertionSort _ _, rfl⟩
  have h1 : (enrichCandidate mapping p.1 p.2).drug_list =
      ((List.insertionSort drugGE (enrichCandidate mapping p.1 p.2).drug_details).take
        MAX_DRUGS_PER_TARGET).map (fun d => d.drug_name) := rfl
  rw [h1, List.length_map]
  exact List.length_take_le _ _

theorem c8_witness :
    candC8.drug_list =
        ((List.insertionSort drugGE candC8.drug_details).take MAX_DRUGS_PER_TARGET).map
          (fun d => d.drug_name) ∧
      candC8.drug_count = candC8.drug_list.length ∧
      candC8.drug_list.length ≤ MAX_DRUGS_PER_TARGET ∧
      (List.insertionSort drugGE candC8.drug_details).Pairwise drugGE ∧
      List.Perm (List.insertionSort drugGE candC8.drug_details) candC8.drug_details ∧
      candC8.drug_name =
        (if candC8.drug_list.isEmpty then none
         else some (String.intercalate ", " candC8.drug_list)) :=
  c8_amended ["A"] (.ok tAB) (.ok 200 (.json false [nC8])) respC8 (by decide) candC8
    (by decide)

/-- C9 (confirmed): the temporary file is removed exactly on the runs that
created it — the finally clause runs on the success path and on every
exception path after the file was saved, and no temp file exists on the
early-reject path. -/
theorem c9_temp_file_released :
    ∀ (biomarkers : List String) (csv : Except String Table) (net : NetResult),
      (drug_repurposing_engine biomarkers csv net).tempRemoved =
        (drug_repurposing_engine biomarkers csv net).tempCreated := by
  intro biomarkers csv net
  unfold drug_repurposing_engine
  by_cases hbs : (normBiomarkers biomarkers).isEmpty
  · rw [if_pos hbs]
  · rw [if_neg hbs]
    unfold finalizeTemp
    cases engineBody (normBiomarkers biomarkers) csv net with
    | error e => rfl
    | ok resp => rfl

/-- C10 counterexample: with one requested gene and two equal response
nodes, the second node (position 1, beyond the single requested gene) is
attributed to gene "A" again — list index finds the first equal node — so
its interactions are not silently dropped; "A" receives the entry twice. -/
theorem c10_counterexample :
    fetch_dgidb_drugs_via_graphql ["A"] (.ok 200 (.json false [n1, n1])) =
      some [("A", [mkEntry int1 "d", mkEntry int1 "d"])] := by
  decide

/-- C10 (amended): when every requested gene is already stripped-uppercase,
parsing any well-formed successful response never raises, every key of the
returned map is the uppercase of a requested gene, and every attributed
entry comes from a node whose first occurrence in the node list lies below
the number of unique requested genes (a duplicate of an earlier node is
attributed at the earlier node's position rather than dropped). -/
theorem c10_amended :
    ∀ (genes : List String) (nodes : List GeneNode),
      (∀ g, g ∈ genes → pyUpper (pyStrip g) = pyStrip g) →
      ∃ m, fetch_dgidb_drugs_via_graphql genes (.ok 200 (.json false nodes)) = some m ∧
        (∀ k, k ∈ m.map Prod.fst → ∃ g, g ∈ genes ∧ k = pyUpper (pyStrip g)) ∧
        (∀ p, p ∈ m → ∀ e, e ∈ p.2 → entryFrom (uniqueGenes genes) nodes p.1 e) := by
  intro genes nodes hU
  exact fetch_ok_spec genes nodes hU

theorem c10_witness :
    (fetch_dgidb_drugs_via_graphql ["A"] (.ok 200 (.json false [n1]))).isSome = true := by
  obtain ⟨m, hm, _⟩ := c10_amended ["A"] [n1] (by decide)
  rw [hm]
  rfl
